import Mathlib

/-!
# goprobber: a verification development

A shallow embedding of `goprobber.go` (the bulk web-fingerprinting probe) and of the
pieces of the Go standard library, `golang.org/x/net/html` and
`github.com/spaolacci/murmur3` that the modelled code calls.

Conventions of the embedding.

* A Go `string` (and a `[]byte`) is a sequence of bytes: `GoString = List UInt8`.
  String literals are written `str "text"`, the UTF-8 bytes of the text.
* A Go `rune` is modelled by its `uint32` value, a natural number.
* A Go `int` is an `Int`; the lengths involved are far below the 64-bit bounds.
* A run-time panic is the value `none` of an `Option` (or the constructor `panic`
  of the ingest outcome).
-/

namespace Goprobber

/-! ## Strings, runes and UTF-8 -/

/-- A Go string: an immutable sequence of bytes. -/
abbrev GoString := List UInt8

/-- A Go rune, by its `uint32` value. -/
abbrev Rune := Nat

/-- `utf8.RuneError`, the replacement character U+FFFD. -/
def RuneError : Rune := 0xFFFD

/-- `utf8.MaxRune`. -/
def MaxRune : Rune := 0x10FFFF

/-- The byte of an ASCII character literal such as `'\n'`. -/
def byteOf (c : Char) : UInt8 := c.toNat.toUInt8

/-- `utf8.EncodeRune` / `bytes.Buffer.WriteRune`: the UTF-8 bytes of a rune; a
surrogate or out-of-range rune is written as `RuneError`. -/
def EncodeRune (r : Rune) : GoString :=
  if r ≤ 0x7F then [r.toUInt8]
  else if r ≤ 0x7FF then
    [(0xC0 ||| (r >>> 6)).toUInt8, (0x80 ||| (r &&& 0x3F)).toUInt8]
  else if r > MaxRune ∨ (0xD800 ≤ r ∧ r ≤ 0xDFFF) then [0xEF, 0xBF, 0xBD]
  else if r ≤ 0xFFFF then
    [(0xE0 ||| (r >>> 12)).toUInt8, (0x80 ||| ((r >>> 6) &&& 0x3F)).toUInt8,
     (0x80 ||| (r &&& 0x3F)).toUInt8]
  else
    [(0xF0 ||| (r >>> 18)).toUInt8, (0x80 ||| ((r >>> 12) &&& 0x3F)).toUInt8,
     (0x80 ||| ((r >>> 6) &&& 0x3F)).toUInt8, (0x80 ||| (r &&& 0x3F)).toUInt8]

/-- The bytes of a string literal: the UTF-8 encoding of its characters. -/
def str (s : String) : GoString := s.toList.flatMap (fun c => EncodeRune c.toNat)

/-- The table `first` of package `utf8`, as (size, accept range) of a leading byte:
size 1 is ASCII, size 0 is an invalid leading byte. -/
def first (b : Nat) : Nat × Nat × Nat :=
  if b < 0x80 then (1, 0, 0)
  else if b < 0xC2 then (0, 0, 0)
  else if b < 0xE0 then (2, 0x80, 0xBF)
  else if b = 0xE0 then (3, 0xA0, 0xBF)
  else if b = 0xED then (3, 0x80, 0x9F)
  else if b < 0xF0 then (3, 0x80, 0xBF)
  else if b = 0xF0 then (4, 0x90, 0xBF)
  else if b < 0xF4 then (4, 0x80, 0xBF)
  else if b = 0xF4 then (4, 0x80, 0x8F)
  else (0, 0, 0)

/-- `utf8.DecodeRuneInString`: the first rune of `s` and its width in bytes;
`(RuneError, 0)` for the empty string and `(RuneError, 1)` for an invalid encoding. -/
def DecodeRuneInString (s : GoString) : Rune × Nat :=
  match s with
  | [] => (RuneError, 0)
  | s0 :: t =>
    let (sz, lo, hi) := first s0.toNat
    if sz = 1 then (s0.toNat, 1)
    else if sz = 0 then (RuneError, 1)
    else if t.length + 1 < sz then (RuneError, 1)
    else
      match t with
      | [] => (RuneError, 1)
      | s1 :: t1 =>
        if s1.toNat < lo ∨ hi < s1.toNat then (RuneError, 1)
        else if sz ≤ 2 then ((s0.toNat &&& 0x1F) <<< 6 ||| (s1.toNat &&& 0x3F), 2)
        else
          match t1 with
          | [] => (RuneError, 1)
          | s2 :: t2 =>
            if s2.toNat < 0x80 ∨ 0xBF < s2.toNat then (RuneError, 1)
            else if sz ≤ 3 then
              ((s0.toNat &&& 0x0F) <<< 12 ||| (s1.toNat &&& 0x3F) <<< 6
                ||| (s2.toNat &&& 0x3F), 3)
            else
              match t2 with
              | [] => (RuneError, 1)
              | s3 :: _ =>
                if s3.toNat < 0x80 ∨ 0xBF < s3.toNat then (RuneError, 1)
                else
                  ((s0.toNat &&& 0x07) <<< 18 ||| (s1.toNat &&& 0x3F) <<< 12
                    ||| (s2.toNat &&& 0x3F) <<< 6 ||| (s3.toNat &&& 0x3F), 4)

/-- The iterations of `for i, char := range s` from byte offset `i`: the pairs
(byte index, rune), an invalid byte giving `RuneError` and advancing by one. -/
def rangeFrom : Nat → Nat → GoString → List (Nat × Rune)
  | 0, _, _ => []
  | _ + 1, _, [] => []
  | fuel + 1, i, b :: t =>
    let d := DecodeRuneInString (b :: t)
    (i, d.1) :: rangeFrom fuel (i + d.2) ((b :: t).drop d.2)

/-- The iterations of `for i, char := range s`. -/
def rangeString (s : GoString) : List (Nat × Rune) := rangeFrom s.length 0 s

/-! ## `InsertInto` (goprobber.go, lines 56-68) -/

/-- The loop of `InsertInto` over the remaining iterations of `range s`, threading
the buffer; `none` is the division-by-zero panic of `i%interval`. -/
def InsertInto.loop (interval before last : Int) (sep : Rune) :
    List (Nat × Rune) → GoString → Option GoString
  | [], buffer => some buffer
  | (i, char) :: rest, buffer =>
    let buffer := buffer ++ EncodeRune char
    if interval = 0 then none
    else if Int.tmod i interval = before ∧ (i : Int) ≠ last then
      InsertInto.loop interval before last sep rest (buffer ++ EncodeRune sep)
    else
      InsertInto.loop interval before last sep rest buffer

/-- `func InsertInto(s string, interval int, sep rune) string`. -/
def InsertInto (s : GoString) (interval : Int) (sep : Rune) : Option GoString :=
  let before := interval - 1
  let last := (s.length : Int) - 1
  (InsertInto.loop interval before last sep (rangeString s) []).map
    (fun buffer => buffer ++ EncodeRune sep)

/-! ## `encoding/base64`: `StdEncoding.EncodeToString` -/

/-- The alphabet `encodeStd` of the standard base64 encoding. -/
def encodeStd : GoString :=
  str "ABCDEFGHIJKLMNOPQRSTUVWXYZabcdefghijklmnopqrstuvwxyz0123456789+/"

/-- The lookup `enc.encode[v]`, with `v` a 6-bit value. -/
def encodeByte (v : Nat) : UInt8 := encodeStd.getD v 0

/-- `base64.StdEncoding.EncodeToString`: three source bytes give four characters,
a remainder of one or two bytes is padded with `=`. -/
def EncodeToString : List UInt8 → GoString
  | a :: b :: c :: rest =>
    let val := a.toNat <<< 16 ||| b.toNat <<< 8 ||| c.toNat
    encodeByte (val >>> 18 &&& 0x3F) :: encodeByte (val >>> 12 &&& 0x3F) ::
      encodeByte (val >>> 6 &&& 0x3F) :: encodeByte (val &&& 0x3F) :: EncodeToString rest
  | [a, b] =>
    let val := a.toNat <<< 16 ||| b.toNat <<< 8
    [encodeByte (val >>> 18 &&& 0x3F), encodeByte (val >>> 12 &&& 0x3F),
     encodeByte (val >>> 6 &&& 0x3F), byteOf '=']
  | [a] =>
    let val := a.toNat <<< 16
    [encodeByte (val >>> 18 &&& 0x3F), encodeByte (val >>> 12 &&& 0x3F),
     byteOf '=', byteOf '=']
  | [] => []

/-! ## `github.com/spaolacci/murmur3`: `Sum32` -/

/-- Truncation to `uint32`. -/
def u32 (x : Nat) : Nat := x % 2 ^ 32

/-- `bits.RotateLeft32`. -/
def RotateLeft32 (x k : Nat) : Nat := u32 (x <<< k) ||| (u32 x >>> (32 - k))

/-- The constant `c1_32` of murmur3. -/
def c1_32 : Nat := 0xcc9e2d51

/-- The constant `c2_32` of murmur3. -/
def c2_32 : Nat := 0x1b873593

/-- The scrambling of one block `k1` before it is mixed into the hash. -/
def scramble (k1 : Nat) : Nat :=
  let k1 := u32 (k1 * c1_32)
  let k1 := RotateLeft32 k1 15
  u32 (k1 * c2_32)

/-- The body of murmur3: every 4-byte block, read little-endian, is mixed into `h1`;
returns the hash state and the tail of fewer than four bytes. -/
def Sum32.body (h1 : Nat) : List UInt8 → Nat × List UInt8
  | a :: b :: c :: d :: rest =>
    let k1 := a.toNat ||| b.toNat <<< 8 ||| c.toNat <<< 16 ||| d.toNat <<< 24
    let h1 := h1 ^^^ scramble k1
    let h1 := RotateLeft32 h1 13
    let h1 := u32 (h1 * 4 + h1 + 0xe6546b64)
    Sum32.body h1 rest
  | tail => (h1, tail)

/-- The tail of murmur3: the one to three remaining bytes. -/
def Sum32.tail (h1 : Nat) : List UInt8 → Nat
  | [a] => h1 ^^^ scramble a.toNat
  | [a, b] => h1 ^^^ scramble (b.toNat <<< 8 ^^^ a.toNat)
  | [a, b, c] => h1 ^^^ scramble (c.toNat <<< 16 ^^^ b.toNat <<< 8 ^^^ a.toNat)
  | _ => h1

/-- The finalisation mix `fmix32` of murmur3. -/
def fmix32 (h1 : Nat) : Nat :=
  let h1 := h1 ^^^ (h1 >>> 16)
  let h1 := u32 (h1 * 0x85ebca6b)
  let h1 := h1 ^^^ (h1 >>> 13)
  let h1 := u32 (h1 * 0xc2b2ae35)
  h1 ^^^ (h1 >>> 16)

/-- `murmur3.Sum32WithSeed`: MurmurHash3, x86 32-bit variant. -/
def Sum32WithSeed (data : List UInt8) (seed : Nat) : Nat :=
  let (h1, tail) := Sum32.body seed data
  let h1 := Sum32.tail h1 tail
  let h1 := h1 ^^^ u32 data.length
  fmix32 h1

/-- `murmur3.Sum32`: the hash with seed 0. -/
def Sum32 (data : List UInt8) : Nat := Sum32WithSeed data 0

/-- The Go conversion `int32(x)` of an unsigned value: wrap-around to the signed
32-bit range. -/
def int32 (x : Nat) : Int := ((x : Int) + 2 ^ 31) % 2 ^ 32 - 2 ^ 31

/-- The favicon hash of goprobber.go, lines 215-217, for a favicon body that was read
without error: base64, re-wrap with `InsertInto`, murmur3, `int32`. -/
def faviconMurmur (faviconBody : List UInt8) : Option Int :=
  let faviconBase64 := EncodeToString faviconBody
  (InsertInto faviconBase64 76 '\n'.toNat).map
    (fun faviconBase64 => int32 (Sum32 faviconBase64))

/-! ## Package `strings`: `TrimSpace`, `Contains`, `ReplaceAll` -/

/-- The table `asciiSpace` of package `strings`. -/
def asciiSpace (c : UInt8) : Bool :=
  c == byteOf '\t' || c == byteOf '\n' || c == 11 || c == 12 || c == byteOf '\r' ||
    c == byteOf ' '

/-- `unicode.IsSpace`. -/
def IsSpace (r : Rune) : Bool :=
  if r ≤ 0xFF then
    r == 9 || r == 10 || r == 11 || r == 12 || r == 13 || r == 32 || r == 0x85 || r == 0xA0
  else
    r == 0x1680 || (0x2000 ≤ r && r ≤ 0x200a) || r == 0x2028 || r == 0x2029 ||
      r == 0x202f || r == 0x205f || r == 0x3000

/-- `strings.indexFunc`: the byte index of the first rune `r` with `f r = truth`,
or -1. -/
def indexFunc (s : GoString) (f : Rune → Bool) (truth : Bool) : Int :=
  match (rangeString s).find? (fun p => f p.2 == truth) with
  | some p => (p.1 : Int)
  | none => -1

/-- `strings.TrimLeftFunc`. -/
def TrimLeftFunc (s : GoString) (f : Rune → Bool) : GoString :=
  let i := indexFunc s f false
  if i = -1 then [] else s.drop i.toNat

/-- `utf8.RuneStart`: the byte is not a continuation byte. -/
def RuneStart (b : UInt8) : Bool := b.toNat &&& 0xC0 != 0x80

/-- The backward scan of `utf8.DecodeLastRuneInString` for the start of the last
rune: from `start` down to `lim`, stopping at a byte that starts a rune. -/
def DecodeLastRuneInString.scan (s : GoString) (lim : Int) : Nat → Int → Int
  | 0, start => start
  | fuel + 1, start =>
    if start ≥ lim then
      if RuneStart (s.getD start.toNat 0) then start
      else DecodeLastRuneInString.scan s lim fuel (start - 1)
    else start

/-- `utf8.DecodeLastRuneInString`: the last rune of `s` and its width. -/
def DecodeLastRuneInString (s : GoString) : Rune × Nat :=
  let «end» : Int := s.length
  if «end» = 0 then (RuneError, 0)
  else
    let start := «end» - 1
    let r := (s.getD start.toNat 0).toNat
    if r < 0x80 then (r, 1)
    else
      let lim := if «end» - 4 < 0 then 0 else «end» - 4
      let start := DecodeLastRuneInString.scan s lim 4 (start - 1)
      let start := if start < 0 then 0 else start
      let d := DecodeRuneInString (s.drop start.toNat)
      if start + d.2 ≠ «end» then (RuneError, 1) else d

/-- The loop of `strings.lastIndexFunc` from byte offset `i` downwards. -/
def lastIndexFunc.go (s : GoString) (f : Rune → Bool) (truth : Bool) : Nat → Nat → Int
  | 0, _ => -1
  | fuel + 1, i =>
    if i > 0 then
      let d := DecodeLastRuneInString (s.take i)
      let i := i - d.2
      if f d.1 == truth then (i : Int) else lastIndexFunc.go s f truth fuel i
    else -1

/-- `strings.lastIndexFunc`: the byte index of the last rune `r` with `f r = truth`,
or -1. -/
def lastIndexFunc (s : GoString) (f : Rune → Bool) (truth : Bool) : Int :=
  lastIndexFunc.go s f truth s.length s.length

/-- `strings.TrimRightFunc`. -/
def TrimRightFunc (s : GoString) (f : Rune → Bool) : GoString :=
  let i := lastIndexFunc s f false
  let i :=
    if i ≥ 0 ∧ (s.getD i.toNat 0).toNat ≥ 0x80 then
      i + (DecodeRuneInString (s.drop i.toNat)).2
    else i + 1
  s.take i.toNat

/-- `strings.TrimFunc`. -/
def TrimFunc (s : GoString) (f : Rune → Bool) : GoString :=
  TrimRightFunc (TrimLeftFunc s f) f

/-- The second loop of `strings.TrimSpace`, on the reversed `s[start:stop]`: trailing
ASCII spaces are cut; a non-ASCII byte hands over to `TrimRightFunc`. -/
def TrimSpace.stop : List UInt8 → GoString
  | [] => []
  | c :: rev =>
    if c.toNat ≥ 0x80 then TrimRightFunc (c :: rev).reverse IsSpace
    else if asciiSpace c then TrimSpace.stop rev
    else (c :: rev).reverse

/-- `strings.TrimSpace`: the first loop skips leading ASCII spaces; a non-ASCII byte
hands over to `TrimFunc`. -/
def TrimSpace : GoString → GoString
  | [] => []
  | c :: t =>
    if c.toNat ≥ 0x80 then TrimFunc (c :: t) IsSpace
    else if asciiSpace c then TrimSpace t
    else TrimSpace.stop (c :: t).reverse

/-- `strings.HasPrefix`. -/
def HasPrefix (s pre : GoString) : Bool := pre.isPrefixOf s

/-- The search of `strings.Index` from byte offset `i`. -/
def Index.go (substr : GoString) : Nat → GoString → Int
  | i, [] => if substr = [] then (i : Int) else -1
  | i, c :: t => if HasPrefix (c :: t) substr then (i : Int) else Index.go substr (i + 1) t

/-- `strings.Index`: the index of the first instance of `substr` in `s`, or -1. -/
def Index (s substr : GoString) : Int := Index.go substr 0 s

/-- `strings.Contains`. -/
def Contains (s substr : GoString) : Bool := Index s substr ≥ 0

/-- The loop of `strings.Count` for a non-empty `substr`. -/
def Count.go (substr : GoString) : Nat → GoString → Nat
  | 0, _ => 0
  | fuel + 1, s =>
    let i := Index s substr
    if i = -1 then 0 else 1 + Count.go substr fuel (s.drop (i.toNat + substr.length))

/-- `strings.Count`: the number of non-overlapping instances of `substr` in `s`; one
more than the number of runes of `s` when `substr` is empty. -/
def Count (s substr : GoString) : Nat :=
  if substr = [] then (rangeString s).length + 1
  else Count.go substr (s.length + 1) s

/-- The replacement loop of `strings.Replace`: `k` iterations remain, `i` have been
done, `start` is the offset reached and `b` the builder. -/
def Replace.loop (s old new : GoString) : Nat → Nat → Nat → GoString → GoString
  | 0, _, start, b => b ++ s.drop start
  | k + 1, i, start, b =>
    let j : Nat :=
      if old = [] then
        if i > 0 then start + (DecodeRuneInString (s.drop start)).2 else start
      else start + (Index (s.drop start) old).toNat
    Replace.loop s old new k (i + 1) (j + old.length)
      (b ++ (s.drop start).take (j - start) ++ new)

/-- `strings.Replace`: the first `n` non-overlapping instances of `old` replaced by
`new`, all of them when `n < 0`. The number of iterations is at most `Count s old`, so
`Index` finds an instance in each of them. -/
def Replace (s old new : GoString) (n : Int) : GoString :=
  if old = new ∨ n = 0 then s
  else
    let m := Count s old
    if m = 0 then s
    else
      let n : Nat := if n < 0 ∨ (m : Int) < n then m else n.toNat
      Replace.loop s old new n 0 0 []

/-- `strings.ReplaceAll`. -/
def ReplaceAll (s old new : GoString) : GoString := Replace s old new (-1)

/-! ## Domain normalisation (goprobber.go, lines 108-111) -/

/-- The domain of a record as `doFingerprinting` uses it:
`strings.TrimSpace`, then `strings.ReplaceAll(domain, "*.", "")` when the trimmed
domain contains `"*."`. -/
def normaliseDomain (responseDomain : GoString) : GoString :=
  let domain := TrimSpace responseDomain
  if Contains domain (str "*.") then ReplaceAll domain (str "*.") (str "") else domain

/-! ## Pinned dialling (goprobber.go, lines 76-98 and 107-114) -/

/-- The search of `strings.IndexByte` from byte offset `i`. -/
def IndexByte.go (c : UInt8) : Nat → GoString → Int
  | _, [] => -1
  | i, b :: t => if b = c then (i : Int) else IndexByte.go c (i + 1) t

/-- `strings.IndexByte`: the index of the first byte `c` in `s`, or -1. -/
def IndexByte (s : GoString) (c : UInt8) : Int := IndexByte.go c 0 s

/-- `strings.LastIndexByte`: the index of the last byte `c` in `s`, or -1. -/
def LastIndexByte (s : GoString) (c : UInt8) : Int :=
  let r := IndexByte s.reverse c
  if r < 0 then -1 else (s.length : Int) - 1 - r

/-- `net.SplitHostPort`: `host:port`, `[host]:port` or `[host%zone]:port` split into
host and port; `none` stands for the `AddrError` results. -/
def SplitHostPort (hostport : GoString) : Option (GoString × GoString) :=
  -- The port starts after the last colon.
  let i := LastIndexByte hostport (byteOf ':')
  if i < 0 then none -- missing port in address
  else
    let bracketed : Option (GoString × Nat × Nat) :=
      if hostport.head? = some (byteOf '[') then
        -- Expect the first ']' just before the last ':'.
        let «end» := IndexByte hostport (byteOf ']')
        if «end» < 0 then none -- missing ']' in address
        else if «end» + 1 = hostport.length then none -- missing port in address
        else if «end» + 1 = i then
          some ((hostport.take «end».toNat).drop 1, 1, «end».toNat + 1)
        else none -- too many colons, or missing port in address
      else
        let host := hostport.take i.toNat
        if IndexByte host (byteOf ':') ≥ 0 then none -- too many colons in address
        else some (host, 0, 0)
    match bracketed with
    | none => none
    | some (host, j, k) =>
      if IndexByte (hostport.drop j) (byteOf '[') ≥ 0 then none -- unexpected '['
      else if IndexByte (hostport.drop k) (byteOf ']') ≥ 0 then none -- unexpected ']'
      else some (host, hostport.drop (i.toNat + 1))

/-- The closure `dialContext` (lines 91-98), as the address that is handed to
`dialer.DialContext` for the address `addr` the HTTP transport asks for;
`resolvedHostname` and `resolvedIP` are the variables the closure captures, read when
the transport dials. -/
def dialContext (resolvedHostname resolvedIP : GoString) (addr : GoString) : GoString :=
  match SplitHostPort addr with
  | none => addr
  | some (host, port) =>
    if host ≠ resolvedHostname then addr
    else resolvedIP ++ str ":" ++ port

/-- The key under which `http.Transport` keeps a connection for reuse: the scheme
and the address `host:port` of the request. -/
structure ConnKey where
  scheme : GoString
  addr : GoString
deriving DecidableEq, Repr

/-- A connection of the transport: the key it serves and the address that was handed
to the dialer when it was made. -/
structure Conn where
  key : ConnKey
  target : GoString
deriving DecidableEq, Repr

/-- What a worker keeps from one record to the next: the pin, i.e. the variables
`resolvedHostname` and `resolvedIP` (lines 76-77), and the idle connections of the
transport `tr`, which is built once for the worker (lines 100-105) and keeps
connections alive. -/
structure Worker where
  resolvedHostname : GoString
  resolvedIP : GoString
  idle : List Conn
deriving DecidableEq, Repr

/-- The worker before its first record (lines 76-77): no connection yet. -/
def Worker.start : Worker :=
  { resolvedHostname := str "example.com", resolvedIP := str "0.0.0.0", idle := [] }

/-- One connection the HTTP client needs for a request (`client.Do`, lines 123, 131
and 206, redirects included): its key, whether an idle connection of that key, if the
transport holds one, is still usable (not timed out, not closed by the peer), and
whether a connection dialled for it is kept for reuse afterwards. Which requests are
made and how the peers behave is the environment's choice. -/
structure ConnRequest where
  key : ConnKey
  idleUsable : Bool
  keepAlive : Bool
deriving DecidableEq, Repr

/-- How a request got its connection: a dial through `dialContext`, or an idle
connection taken from the transport; `target` is the address the connection was
dialled to. -/
inductive ConnEvent where
  | dialled (addr target : GoString)
  | reused (addr target : GoString)
deriving DecidableEq, Repr

/-- The transport serving one request: a usable idle connection of the same key is
reused without a dial; otherwise the transport dials through `dialContext`, which
reads the pin of that moment. -/
def getConn (w : Worker) (req : ConnRequest) : Worker × ConnEvent :=
  match (if req.idleUsable then w.idle.find? (fun c => c.key = req.key) else none) with
  | some c => (w, ConnEvent.reused req.key.addr c.target)
  | none =>
    let target := dialContext w.resolvedHostname w.resolvedIP req.key.addr
    ({ w with idle := if req.keepAlive then { key := req.key, target := target } :: w.idle
                      else w.idle },
     ConnEvent.dialled req.key.addr target)

/-- The requests of one record, served in order. -/
def serve : Worker → List ConnRequest → Worker × List ConnEvent
  | w, [] => (w, [])
  | w, req :: rest =>
    ((serve (getConn w req).1 rest).1, (getConn w req).2 :: (serve (getConn w req).1 rest).2)

/-- The type `DNSResponse`; `IP` stands for `net.IP`. -/
structure DNSResponse (IP : Type) where
  domain : GoString
  ips : List IP

/-- The pin assignments of one iteration of the worker loop (lines 108-114); the
transport and its connections are untouched. `none` is the index-out-of-range panic
of `response.ips[0]`; `ipString` stands for `net.IP.String`. -/
def setPin {IP : Type} (ipString : IP → GoString) (w : Worker) (response : DNSResponse IP) :
    Option Worker :=
  let domain := normaliseDomain response.domain
  match response.ips with
  | [] => none
  | ip0 :: _ => some { w with resolvedIP := ipString ip0, resolvedHostname := domain }

/-- One iteration of the worker loop as far as connections go. The pin is assigned
first (lines 113-114); the requests of the record (`client.Do`, lines 123, 131 and
206) come after it and are served by the worker's transport. The result is the
worker as it is left for the next record and, per request, how it got its
connection. -/
def processRecord {IP : Type} (ipString : IP → GoString) (w : Worker)
    (response : DNSResponse IP) (requests : List ConnRequest) :
    Option (Worker × List ConnEvent) :=
  match setPin ipString w response with
  | none => none
  | some w => some (serve w requests)

/-! ## The page scan (goprobber.go, lines 145-179) -/

/-- `html.TokenType`. -/
inductive TokenType where
  | ErrorToken | TextToken | StartTagToken | EndTagToken | SelfClosingTagToken
  | CommentToken | DoctypeToken
deriving DecidableEq, Repr

/-- `html.Attribute`. -/
structure Attribute where
  Namespace : GoString := []
  Key : GoString
  Val : GoString
deriving DecidableEq, Repr

/-- `html.Token`, together with the token type that `tokenizer.Next` returned. -/
structure Token where
  «Type» : TokenType
  Data : GoString := []
  Attr : List Attribute := []
deriving DecidableEq, Repr

/-- The map `attributes` of lines 162-165: later attributes overwrite earlier ones
of the same key, and a key that is absent reads as the empty string. -/
def attributes (attr : List Attribute) : GoString → GoString :=
  attr.foldl (fun m a => fun key => if key = a.Key then a.Val else m key) (fun _ => [])

/-- The variables of the scan loop. -/
structure Scan where
  isTitle : Bool
  title : GoString
  faviconUrl : GoString
deriving DecidableEq, Repr

/-- The variables before the loop (lines 146-148). -/
def Scan.start : Scan := { isTitle := false, title := [], faviconUrl := [] }

/-- The scan loop (lines 151-177) over the tokens that `tokenizer.Next` yields; the
end of the list is the `ErrorToken` of the end of input. -/
def scanTokens : List Token → Scan → Scan
  | [], st => st
  | token :: rest, st =>
    if token.«Type» = TokenType.ErrorToken ∨ (st.title ≠ [] ∧ st.faviconUrl ≠ []) then st
    else if token.«Type» = TokenType.StartTagToken then
      let tagName := token.Data
      let st := { st with isTitle := tagName == str "title" }
      if tagName = str "link" ∧ st.faviconUrl = [] then
        if attributes token.Attr (str "rel") = str "icon" then
          scanTokens rest { st with faviconUrl := attributes token.Attr (str "href") }
        else scanTokens rest st
      else scanTokens rest st
    else if token.«Type» = TokenType.TextToken then
      if st.isTitle then
        scanTokens rest { st with title := TrimSpace token.Data, isTitle := false }
      else scanTokens rest st
    else scanTokens rest st

/-- The title stored in the fingerprint (line 179). -/
def extractTitle (tokens : List Token) : GoString := (scanTokens tokens Scan.start).title

/-- The text of the first `<title>` element of a token sequence: the text token
that follows the first start tag named `title`, empty when there is none. -/
def firstTitleText : List Token → GoString
  | [] => []
  | token :: rest =>
    if token.«Type» = TokenType.StartTagToken ∧ token.Data = str "title" then
      match rest with
      | next :: _ => if next.«Type» = TokenType.TextToken then next.Data else []
      | [] => []
    else firstTitleText rest

/-! ## Package `net/url`: `URL.String` -/

/-- The type `url.encoding`: the part of a URL a string is escaped for. -/
inductive encoding where
  | encodePath | encodePathSegment | encodeHost | encodeZone | encodeUserPassword
  | encodeQueryComponent | encodeFragment
deriving DecidableEq, Repr

/-- `url.shouldEscape`: whether the byte must be percent-escaped in the given part. -/
def shouldEscape (c : UInt8) (mode : encoding) : Bool :=
  -- §2.3 Unreserved characters (alphanum)
  if (byteOf 'a' ≤ c ∧ c ≤ byteOf 'z') ∨ (byteOf 'A' ≤ c ∧ c ≤ byteOf 'Z') ∨
      (byteOf '0' ≤ c ∧ c ≤ byteOf '9') then false
  else if (mode = encoding.encodeHost ∨ mode = encoding.encodeZone) ∧
      c ∈ str "!$&\x27()*+,;=:[]<>\"" then false
  else if c ∈ str "-_.~" then false
  else if c ∈ str "$&+,/:;=?@" ∧ mode = encoding.encodePath then c == byteOf '?'
  else if c ∈ str "$&+,/:;=?@" ∧ mode = encoding.encodePathSegment then
    c == byteOf '/' || c == byteOf ';' || c == byteOf ',' || c == byteOf '?'
  else if c ∈ str "$&+,/:;=?@" ∧ mode = encoding.encodeUserPassword then
    c == byteOf '@' || c == byteOf '/' || c == byteOf '?' || c == byteOf ':'
  else if c ∈ str "$&+,/:;=?@" ∧ mode = encoding.encodeQueryComponent then true
  else if c ∈ str "$&+,/:;=?@" ∧ mode = encoding.encodeFragment then false
  else if mode = encoding.encodeFragment ∧ c ∈ str "!()*" then false
  else true

/-- The digits `upperhex` of package `url`. -/
def upperhex (n : Nat) : UInt8 := (str "0123456789ABCDEF").getD n 0

/-- `url.escape`: every byte that `shouldEscape` is written `%XX`, a space as `+` in
a query component. -/
def escape (s : GoString) (mode : encoding) : GoString :=
  s.flatMap (fun c =>
    if shouldEscape c mode then
      if c = byteOf ' ' ∧ mode = encoding.encodeQueryComponent then [byteOf '+']
      else [byteOf '%', upperhex (c.toNat >>> 4), upperhex (c.toNat &&& 15)]
    else [c])

/-- `url.ishex`. -/
def ishex (c : UInt8) : Bool :=
  (byteOf '0' ≤ c && c ≤ byteOf '9') || (byteOf 'a' ≤ c && c ≤ byteOf 'f') ||
    (byteOf 'A' ≤ c && c ≤ byteOf 'F')

/-- `url.unhex`. -/
def unhex (c : UInt8) : Nat :=
  if byteOf '0' ≤ c ∧ c ≤ byteOf '9' then c.toNat - (byteOf '0').toNat
  else if byteOf 'a' ≤ c ∧ c ≤ byteOf 'f' then c.toNat - (byteOf 'a').toNat + 10
  else if byteOf 'A' ≤ c ∧ c ≤ byteOf 'F' then c.toNat - (byteOf 'A').toNat + 10
  else 0

/-- `url.unescape`: the percent-decoding of `s`; `none` stands for the
`EscapeError` and `InvalidHostError` results. -/
def unescape (mode : encoding) : GoString → Option GoString
  | [] => some []
  | c :: t =>
    if c = byteOf '%' then
      match t with
      | h1 :: h2 :: t2 =>
        if !ishex h1 || !ishex h2 then none
        else if mode = encoding.encodeHost ∧ unhex h1 < 8 ∧
            [c, h1, h2] ≠ str "%25" then none
        else if mode = encoding.encodeZone ∧ [c, h1, h2] ≠ str "%25" ∧
            (unhex h1 <<< 4 ||| unhex h2) ≠ 32 ∧
            shouldEscape (unhex h1 <<< 4 ||| unhex h2).toUInt8 encoding.encodeHost then none
        else (unescape mode t2).map (fun r => (unhex h1 <<< 4 ||| unhex h2).toUInt8 :: r)
      | _ => none
    else if c = byteOf '+' then
      (unescape mode t).map (fun r =>
        (if mode = encoding.encodeQueryComponent then byteOf ' ' else byteOf '+') :: r)
    else if (mode = encoding.encodeHost ∨ mode = encoding.encodeZone) ∧ c.toNat < 0x80 ∧
        shouldEscape c encoding.encodeHost then none
    else (unescape mode t).map (fun r => c :: r)

/-- `url.validEncoded`: whether `s` is a valid encoded path or fragment. -/
def validEncoded (s : GoString) (mode : encoding) : Bool :=
  s.all (fun c =>
    if c ∈ str "!$&\x27()*+,;=:@" then true
    else if c ∈ str "[]" then true
    else if c = byteOf '%' then true
    else !shouldEscape c mode)

/-- The type `url.Userinfo`. -/
structure Userinfo where
  username : GoString
  password : GoString
  passwordSet : Bool
deriving DecidableEq, Repr

/-- `Userinfo.String`. -/
def Userinfo.String (u : Userinfo) : GoString :=
  let s := escape u.username encoding.encodeUserPassword
  if u.passwordSet then s ++ str ":" ++ escape u.password encoding.encodeUserPassword
  else s

/-- The type `url.URL`; `OpaquePart` is its field `Opaque`. -/
structure URL where
  Scheme : GoString := []
  OpaquePart : GoString := []
  User : Option Userinfo := none
  Host : GoString := []
  Path : GoString := []
  RawPath : GoString := []
  OmitHost : Bool := false
  ForceQuery : Bool := false
  RawQuery : GoString := []
  Fragment : GoString := []
  RawFragment : GoString := []
deriving DecidableEq, Repr

/-- `URL.EscapedPath`: `RawPath` when it is a valid encoding of `Path`, else the
escaped `Path`. -/
def URL.EscapedPath (u : URL) : GoString :=
  if u.RawPath ≠ [] ∧ validEncoded u.RawPath encoding.encodePath ∧
      unescape encoding.encodePath u.RawPath = some u.Path then u.RawPath
  else if u.Path = str "*" then str "*"
  else escape u.Path encoding.encodePath

/-- `URL.EscapedFragment`. -/
def URL.EscapedFragment (u : URL) : GoString :=
  if u.RawFragment ≠ [] ∧ validEncoded u.RawFragment encoding.encodeFragment ∧
      unescape encoding.encodeFragment u.RawFragment = some u.Fragment then u.RawFragment
  else escape u.Fragment encoding.encodeFragment

/-- The part of `URL.String` from `//` up to the path, written when `Opaque` is
empty. -/
def URL.authority (u : URL) : GoString :=
  if u.Scheme ≠ [] ∨ u.Host ≠ [] ∨ u.User ≠ none then
    if u.OmitHost ∧ u.Host = [] ∧ u.User = none then []
    else
      (if u.Host ≠ [] ∨ u.Path ≠ [] ∨ u.User ≠ none then str "//" else []) ++
      (match u.User with
       | some ui => ui.String ++ str "@"
       | none => []) ++
      (if u.Host ≠ [] then escape u.Host encoding.encodeHost else [])
  else []

/-- `URL.String`: the URL reassembled as
`scheme:opaque?query#fragment` or `scheme://userinfo@host/path?query#fragment`. -/
def URL.String (u : URL) : GoString :=
  let buf : GoString := if u.Scheme ≠ [] then u.Scheme ++ str ":" else []
  let buf :=
    if u.OpaquePart ≠ [] then buf ++ u.OpaquePart
    else
      let buf := buf ++ u.authority
      let path := u.EscapedPath
      let buf :=
        if path ≠ [] ∧ path.head? ≠ some (byteOf '/') ∧ u.Host ≠ [] then buf ++ str "/"
        else buf
      let buf :=
        if buf.length = 0 then
          -- a first path segment with a colon would read as a scheme
          let segment := path.takeWhile (fun c => c ≠ byteOf '/')
          if Contains segment (str ":") then buf ++ str "./" else buf
        else buf
      buf ++ path
  let buf :=
    if u.ForceQuery ∨ u.RawQuery ≠ [] then buf ++ str "?" ++ u.RawQuery else buf
  if u.Fragment ≠ [] then buf ++ str "#" ++ u.EscapedFragment else buf

/-! ## The favicon URL (goprobber.go, lines 181-198) -/

/-- The default of lines 190-191 and 196-197: the path of the response URL is set to
`/favicon.ico` and the URL is written out again. -/
def defaultFaviconUrl (responseURL : URL) : GoString :=
  ({ responseURL with Path := str "/favicon.ico" } : URL).String

/-- The absolute favicon URL of lines 187-198. `responseURL` is the parsed URL of
the response; `Parse` stands for `url.Parse` (`none`: it returns an error) and
`ResolveReference` for `URL.ResolveReference`. -/
def absoluteFaviconUrl (Parse : GoString → Option URL) (ResolveReference : URL → URL → URL)
    (responseURL : URL) (faviconUrl : GoString) : GoString :=
  if faviconUrl ≠ [] then
    match Parse faviconUrl with
    | none => defaultFaviconUrl responseURL
    | some parsedFaviconUrl => (ResolveReference responseURL parsedFaviconUrl).String
  else defaultFaviconUrl responseURL

/-! ## The ingestor (goprobber.go, lines 274-292) -/

/-- An element of `MassDNSOutput.Data.Answers`. -/
structure Answer where
  «Type» : GoString
  Data : GoString
deriving DecidableEq, Repr

/-- The field `Data` of `MassDNSOutput`. -/
structure MassDNSData where
  Answers : List Answer
deriving DecidableEq, Repr

/-- The type `MassDNSOutput`; a field that is absent from the JSON text keeps its
zero value, the empty string or the empty list. -/
structure MassDNSOutput where
  Name : GoString
  Data : MassDNSData
deriving DecidableEq, Repr

/-- What the ingest loop does with one line. -/
inductive Ingested (IP : Type) where
  | skip : Ingested IP
  | emit : DNSResponse IP → Ingested IP
  | panic : Ingested IP

/-- The loop of lines 283-287: the parsed data of the answers of type `"A"`. -/
def collectIps {IP : Type} (ParseIP : GoString → IP) : List Answer → List IP → List IP
  | [], ips => ips
  | answer :: rest, ips =>
    if answer.«Type» = str "A" then collectIps ParseIP rest (ips ++ [ParseIP answer.Data])
    else collectIps ParseIP rest ips

/-- The slice expression `s[:len(s)-1]`: `none` is the panic "slice bounds out of
range [:-1]" on the empty string. -/
def sliceInit (s : GoString) : Option GoString :=
  if (s.length : Int) - 1 < 0 then none else some (s.take (s.length - 1))

/-- The body of the ingest loop for one line (lines 275-291): `decoded` is the result
of `json.Unmarshal`, `none` when it returns an error; `ParseIP` stands for
`net.ParseIP`. -/
def ingestLine {IP : Type} (ParseIP : GoString → IP) (decoded : Option MassDNSOutput) :
    Ingested IP :=
  match decoded with
  | none => Ingested.skip
  | some massdnsOutput =>
    let ips := collectIps ParseIP massdnsOutput.Data.Answers []
    if ips.length > 0 then
      match sliceInit massdnsOutput.Name with
      | none => Ingested.panic
      | some name => Ingested.emit { domain := name, ips := ips }
    else Ingested.skip

/-- The ingest loop over the lines of the input: the records sent to the channel
`domains`, in order, and whether the loop got to the end of the input (`false`: a
panic ended the program at some line). -/
def ingest {IP : Type} (ParseIP : GoString → IP) :
    List (Option MassDNSOutput) → List (DNSResponse IP) × Bool
  | [] => ([], true)
  | line :: rest =>
    match ingestLine ParseIP line with
    | Ingested.skip => ingest ParseIP rest
    | Ingested.emit r => ((r :: (ingest ParseIP rest).1), (ingest ParseIP rest).2)
    | Ingested.panic => ([], false)

/-! ## Definitions used to state the properties -/

/-- The consecutive chunks of `n` elements of a list, the last one possibly shorter:
chunk number `k` is `s[k*n : (k+1)*n]`, and there are `⌈len(s)/n⌉` of them. -/
def chunksOf {α : Type} (n : Nat) (s : List α) : List (List α) :=
  (List.range ((s.length + n - 1) / n)).map (fun k => (s.drop (k * n)).take n)

/-- The bytes that the loop of `InsertInto` writes for an ASCII string that starts at
byte offset `k`, with interval 76 and separator `'\n'`: a newline after a byte at an
offset that is 75 modulo 76, unless it is the last byte. -/
def wrapAux (k : Nat) : GoString → GoString
  | [] => []
  | c :: t =>
    c :: (if k % 76 = 75 ∧ t ≠ [] then 10 :: wrapAux (k + 1) t else wrapAux (k + 1) t)

/-- The string without its instances of the wildcard marker `"*."`, found from left
to right: where the marker stands it is dropped and the scan goes on behind it. -/
def stripMarkers : GoString → GoString
  | [] => []
  | [a] => [a]
  | a :: b :: t =>
    if a = byteOf '*' ∧ b = byteOf '.' then stripMarkers t else a :: stripMarkers (b :: t)

/-! # Properties -/

/-! ## `InsertInto` -/

theorem toUInt8_toNat (c : UInt8) : c.toNat.toUInt8 = c := by
  cases c; simp [Nat.toUInt8, UInt8.ofNat, UInt8.toNat]

theorem EncodeRune_ascii (c : UInt8) (h : c.toNat < 0x80) : EncodeRune c.toNat = [c] := by
  have : c.toNat ≤ 0x7F := by omega
  simp [EncodeRune, this, toUInt8_toNat]

theorem DecodeRuneInString_ascii (c : UInt8) (t : GoString) (h : c.toNat < 0x80) :
    DecodeRuneInString (c :: t) = (c.toNat, 1) := by
  simp [DecodeRuneInString, first, h]

theorem rangeFrom_ascii (s : GoString) (hs : ∀ c ∈ s, c.toNat < 0x80) :
    ∀ (fuel i : Nat), s.length ≤ fuel →
      rangeFrom fuel i s = (s.enumFrom i).map (fun p => (p.1, p.2.toNat)) := by
  induction s with
  | nil => intro fuel i _; cases fuel <;> simp [rangeFrom]
  | cons c t ih =>
    intro fuel i hf
    cases fuel with
    | zero => simp at hf
    | succ fuel =>
      have hc : c.toNat < 0x80 := hs c (by simp)
      simp only [rangeFrom, DecodeRuneInString_ascii c t hc, List.drop_succ_cons, List.drop_zero,
        List.enumFrom_cons, List.map_cons]
      rw [ih (fun x hx => hs x (by simp [hx])) fuel (i + 1) (by simpa using hf)]

theorem loop_ascii (s : GoString) (hs : ∀ c ∈ s, c.toNat < 0x80) :
    ∀ (i : Nat) (buf : GoString),
      InsertInto.loop 76 75 (((i + s.length : Nat) : Int) - 1) 10
        ((s.enumFrom i).map (fun p => (p.1, p.2.toNat))) buf = some (buf ++ wrapAux i s) := by
  induction s with
  | nil => intro i buf; simp [InsertInto.loop, wrapAux]
  | cons c t ih =>
    intro i buf
    have hc : c.toNat < 0x80 := hs c (by simp)
    have ih' := ih (fun x hx => hs x (by simp [hx])) (i + 1)
    have e : i + (c :: t).length = i + 1 + t.length := by simp; omega
    rw [e]
    simp only [List.enumFrom_cons, List.map_cons, InsertInto.loop, EncodeRune_ascii c hc]
    have h10 : EncodeRune 10 = [10] := by decide
    have hcond : (Int.tmod (i : Int) 76 = 75 ∧ (i : Int) ≠ ((i + 1 + t.length : Nat) : Int) - 1)
        ↔ (i % 76 = 75 ∧ t ≠ []) := by
      have : Int.tmod (i : Int) 76 = ((i % 76 : Nat) : Int) := by
        rw [Int.ofNat_tmod]; rfl
      rw [this]
      constructor
      · rintro ⟨h1, h2⟩
        refine ⟨by omega, ?_⟩
        intro ht; subst ht; simp at h2
      · rintro ⟨h1, h2⟩
        have : 0 < t.length := List.length_pos.mpr h2
        refine ⟨by omega, by push_cast; omega⟩
    by_cases hk : i % 76 = 75 ∧ t ≠ []
    · have hk' := hcond.mpr hk
      simp only [wrapAux, if_pos hk, if_pos hk', h10]
      rw [ih']; simp
    · have hk' := fun h => hk (hcond.mp h)
      simp only [wrapAux, if_neg hk, if_neg hk']
      rw [ih']; simp

theorem InsertInto_ascii (s : GoString) (hs : ∀ c ∈ s, c.toNat < 0x80) :
    InsertInto s 76 10 = some (wrapAux 0 s ++ [10]) := by
  have h := loop_ascii s hs 0 []
  have h10 : EncodeRune 10 = [10] := by decide
  simp only [Nat.zero_add, List.nil_append] at h
  simp [InsertInto, rangeString, rangeFrom_ascii s hs s.length 0 le_rfl, h, h10]

theorem chunksOf_cons {α : Type} (s : List α) (hs : s ≠ []) :
    chunksOf 76 s = s.take 76 :: chunksOf 76 (s.drop 76) := by
  have hlen : 0 < s.length := List.length_pos.mpr hs
  have e : (s.length + 76 - 1) / 76 = ((s.drop 76).length + 76 - 1) / 76 + 1 := by
    simp only [List.length_drop]; omega
  unfold chunksOf
  rw [e, List.range_succ_eq_map, List.map_cons, List.map_map]
  simp only [Nat.zero_mul, List.drop_zero, List.cons.injEq, true_and]
  apply List.map_congr_left
  intro k _
  simp only [Function.comp, List.drop_drop, Nat.succ_mul]
  have : k * 76 + 76 = 76 + k * 76 := by omega
  rw [this]

theorem chunksOf_nil {α : Type} : chunksOf 76 ([] : List α) = [] := by
  simp [chunksOf]

theorem wrapAux_chunks : ∀ (s : GoString) (i : Nat), s ≠ [] →
    wrapAux i s ++ [10] =
      s.take (76 - i % 76) ++ [10] ++
        (chunksOf 76 (s.drop (76 - i % 76))).flatMap (fun c => c ++ [10]) := by
  intro s
  induction s with
  | nil => intro i h; exact absurd rfl h
  | cons c t ih =>
    intro i _
    have hk : i % 76 < 76 := Nat.mod_lt _ (by decide)
    by_cases ht : t = []
    · subst ht
      have e : 76 - i % 76 = (75 - i % 76) + 1 := by omega
      simp [wrapAux, e, chunksOf_nil]
    · have ih' := ih (i + 1) ht
      by_cases h75 : i % 76 = 75
      · have e1 : (i + 1) % 76 = 0 := by omega
        rw [e1] at ih'
        simp only [wrapAux, h75, ht, ne_eq, not_false_eq_true, and_self, if_true]
        simp only [List.cons_append, ih']
        have : (76 : Nat) - 75 = 1 := rfl
        simp only [this, List.take_succ_cons, List.take_zero, List.drop_succ_cons, List.drop_zero]
        rw [chunksOf_cons t ht]
        simp
      · have e1 : (i + 1) % 76 = i % 76 + 1 := by omega
        rw [e1] at ih'
        have e2 : 76 - i % 76 = (76 - (i % 76 + 1)) + 1 := by omega
        simp only [wrapAux, h75, false_and, if_false, List.cons_append, ih']
        rw [e2]
        simp

theorem wrapAux_filter : ∀ (s : GoString) (i : Nat), (∀ c ∈ s, c ≠ 10) →
    (wrapAux i s).filter (fun c => c ≠ 10) = s := by
  intro s
  induction s with
  | nil => intro i _; simp [wrapAux]
  | cons c t ih =>
    intro i h
    have hc : c ≠ 10 := h c (by simp)
    have ih' := ih (i + 1) (fun x hx => h x (by simp [hx]))
    by_cases hk : i % 76 = 75 ∧ t ≠ []
    · simp only [wrapAux, if_pos hk]
      simpa [hc] using ih'
    · simp only [wrapAux, if_neg hk]
      simpa [hc] using ih'

theorem wrapAux_length : ∀ (s : GoString) (i : Nat), s ≠ [] →
    (wrapAux i s).length = s.length + (i % 76 + s.length - 1) / 76 := by
  intro s
  induction s with
  | nil => intro i h; exact absurd rfl h
  | cons c t ih =>
    intro i _
    have hk : i % 76 < 76 := Nat.mod_lt _ (by decide)
    by_cases ht : t = []
    · subst ht
      simp [wrapAux]
    · have ih' := ih (i + 1) ht
      have : 0 < t.length := List.length_pos.mpr ht
      by_cases h75 : i % 76 = 75
      · have e1 : (i + 1) % 76 = 0 := by omega
        simp only [wrapAux, h75, ht, ne_eq, not_false_eq_true, and_self, if_true,
          List.length_cons, ih', e1]
        omega
      · have e1 : (i + 1) % 76 = i % 76 + 1 := by omega
        simp only [wrapAux, h75, false_and, if_false, List.length_cons, ih', e1]
        omega

theorem wrapAux_chain : ∀ (s : GoString) (i : Nat), (∀ c ∈ s, c ≠ 10) →
    List.Chain' (fun a b : UInt8 => ¬ (a = 10 ∧ b = 10)) (wrapAux i s) ∧
      (wrapAux i s).head? ≠ some 10 ∧ (wrapAux i s).getLast? ≠ some 10 := by
  intro s
  induction s with
  | nil => intro i _; simp [wrapAux]
  | cons c t ih =>
    intro i h
    have hc : c ≠ 10 := h c (by simp)
    obtain ⟨ih1, ih2, ih3⟩ := ih (i + 1) (fun x hx => h x (by simp [hx]))
    by_cases ht : t = []
    · subst ht
      simp [wrapAux, hc]
    · have hne : wrapAux (i + 1) t ≠ [] := by
        cases t with
        | nil => exact absurd rfl ht
        | cons a t' => simp [wrapAux]
      by_cases hk : i % 76 = 75 ∧ t ≠ []
      · simp only [wrapAux, if_pos hk]
        refine ⟨?_, by simp [hc], ?_⟩
        · refine List.Chain'.cons (by simp [hc]) (List.Chain'.cons' ih1 ?_)
          intro y hy
          rintro ⟨_, rfl⟩
          exact ih2 (by simpa using hy)
        · obtain ⟨a, l, e⟩ := List.exists_cons_of_ne_nil hne
          rw [e] at ih3 ⊢
          rw [List.getLast?_cons_cons, List.getLast?_cons_cons]
          exact ih3
      · simp only [wrapAux, if_neg hk]
        refine ⟨List.Chain'.cons' ih1 ?_, by simp [hc], ?_⟩
        · intro y _
          simp [hc]
        · obtain ⟨a, l, e⟩ := List.exists_cons_of_ne_nil hne
          rw [e] at ih3 ⊢
          rw [List.getLast?_cons_cons]
          exact ih3

/-- Claim C2. For every string `s` of ASCII bytes other than newline,
`InsertInto(s, 76, '\n')` returns the consecutive 76-byte chunks of `s`, each followed
by one newline (`"\n"` alone for the empty `s`): the result ends with exactly one
newline, no two newlines are adjacent, deleting the newlines gives back `s`, and for a
non-empty `s` the length is `len(s) + ⌈len(s)/76⌉`. -/
theorem InsertInto_wraps_every_76 (s : GoString)
    (h : ∀ c ∈ s, c.toNat < 0x80 ∧ c ≠ byteOf '\n') :
    ∃ out, InsertInto s 76 '\n'.toNat = some out ∧
      (s = [] → out = [byteOf '\n']) ∧
      (s ≠ [] → out = (chunksOf 76 s).flatMap (fun chunk => chunk ++ [byteOf '\n'])) ∧
      out.getLast? = some (byteOf '\n') ∧
      out.dropLast.getLast? ≠ some (byteOf '\n') ∧
      List.Chain' (fun a b : UInt8 => ¬ (a = byteOf '\n' ∧ b = byteOf '\n')) out ∧
      out.filter (fun c => c ≠ byteOf '\n') = s ∧
      (s ≠ [] → out.length = s.length + (s.length + 75) / 76) := by
  have hnl : byteOf '\n' = 10 := by decide
  have hnl' : '\n'.toNat = 10 := by decide
  rw [hnl] at h ⊢
  rw [hnl']
  have h1 : ∀ c ∈ s, c.toNat < 0x80 := fun c hc => (h c hc).1
  have h2 : ∀ c ∈ s, c ≠ 10 := fun c hc => (h c hc).2
  obtain ⟨c1, c2, c3⟩ := wrapAux_chain s 0 h2
  refine ⟨wrapAux 0 s ++ [10], InsertInto_ascii s h1, ?_, ?_, ?_, ?_, ?_, ?_, ?_⟩
  · rintro rfl; simp [wrapAux]
  · intro hs
    have := wrapAux_chunks s 0 hs
    rw [this, chunksOf_cons s hs]
    simp
  · simp
  · simpa using c3
  · refine List.Chain'.append c1 (by simp) ?_
    intro x hx y hy
    simp at hy
    subst hy
    intro hxy
    exact c3 (by rw [hxy.1] at hx; simpa using hx)
  · have := wrapAux_filter s 0 h2
    simp only [List.filter_append]
    simpa using this
  · intro hs
    have := wrapAux_length s 0 hs
    have hl : 0 < s.length := List.length_pos.mpr hs
    simp only [List.length_append, List.length_singleton, this]
    omega

/-- Claim C2 at the base64 text `aGVsbG8=`. -/
theorem InsertInto_wraps_every_76_witness :
    (∀ c ∈ str "aGVsbG8=", c.toNat < 0x80 ∧ c ≠ byteOf '\n') ∧
    ∃ out, InsertInto (str "aGVsbG8=") 76 '\n'.toNat = some out ∧
      (str "aGVsbG8=" = [] → out = [byteOf '\n']) ∧
      (str "aGVsbG8=" ≠ [] →
        out = (chunksOf 76 (str "aGVsbG8=")).flatMap (fun chunk => chunk ++ [byteOf '\n'])) ∧
      out.getLast? = some (byteOf '\n') ∧
      out.dropLast.getLast? ≠ some (byteOf '\n') ∧
      List.Chain' (fun a b : UInt8 => ¬ (a = byteOf '\n' ∧ b = byteOf '\n')) out ∧
      out.filter (fun c => c ≠ byteOf '\n') = str "aGVsbG8=" ∧
      (str "aGVsbG8=" ≠ [] →
        out.length = (str "aGVsbG8=").length + ((str "aGVsbG8=").length + 75) / 76) :=
  ⟨by decide, InsertInto_wraps_every_76 (str "aGVsbG8=") (by decide)⟩

/-! ## The favicon hash -/

theorem encodeByte_ascii (v : Nat) : (encodeByte v).toNat < 0x80 ∧ encodeByte v ≠ 10 := by
  by_cases hv : v < 64
  · interval_cases v <;> decide
  · have : encodeStd.length ≤ v := by
      have : encodeStd.length = 64 := by decide
      omega
    rw [encodeByte, List.getD_eq_default _ _ this]
    decide

theorem EncodeToString_ascii : ∀ (n : Nat) (b : List UInt8), b.length ≤ n →
    ∀ c ∈ EncodeToString b, c.toNat < 0x80 ∧ c ≠ 10 := by
  intro n
  induction n using Nat.strong_induction_on with
  | _ n ih =>
    intro b hb c hc
    match b, hb, hc with
    | [], _, hc => simp [EncodeToString] at hc
    | [a], _, hc =>
      simp only [EncodeToString, List.mem_cons, List.mem_singleton, List.not_mem_nil,
        or_false] at hc
      rcases hc with h | h | h | h <;> subst h <;> first | exact encodeByte_ascii _ | decide
    | [a, b], _, hc =>
      simp only [EncodeToString, List.mem_cons, List.mem_singleton, List.not_mem_nil,
        or_false] at hc
      rcases hc with h | h | h | h <;> subst h <;> first | exact encodeByte_ascii _ | decide
    | a :: b :: d :: rest, hb, hc =>
      simp only [EncodeToString, List.mem_cons] at hc
      rcases hc with h | h | h | h | h
      · subst h; exact encodeByte_ascii _
      · subst h; exact encodeByte_ascii _
      · subst h; exact encodeByte_ascii _
      · subst h; exact encodeByte_ascii _
      · exact ih rest.length (by simp at hb; omega) rest le_rfl c h

theorem Sum32_lt (data : List UInt8) : Sum32 data < 2 ^ 32 := by
  have hu : ∀ x, u32 x < 2 ^ 32 := fun x => Nat.mod_lt _ (by decide)
  simp only [Sum32, Sum32WithSeed, fmix32]
  apply Nat.xor_lt_two_pow (hu _)
  rw [Nat.shiftRight_eq_div_pow]
  exact lt_of_le_of_lt (Nat.div_le_self _ _) (hu _)

theorem int32_eq (x : Nat) (h : x < 2 ^ 32) :
    int32 x = if x < 2 ^ 31 then (x : Int) else (x : Int) - 2 ^ 32 := by
  unfold int32
  split <;> omega

/-- Claim C1. For every favicon body `b` the stored hash is the 32-bit MurmurHash3
(x86, seed 0) of `InsertInto(base64Std(b), 76, '\n')`, read as a signed 32-bit
integer (`h` below `2^31`, else `h - 2^32`); the hashed text is the base64 text in
76-byte lines, each ended by a newline. For the empty `b` the hashed string is
`"\n"` and the hash is -1840324437. -/
theorem faviconMurmur_eq_signed_murmur3 (b : List UInt8) :
    (∃ wrapped, InsertInto (EncodeToString b) 76 '\n'.toNat = some wrapped ∧
      (b ≠ [] → wrapped =
        (chunksOf 76 (EncodeToString b)).flatMap (fun chunk => chunk ++ [byteOf '\n'])) ∧
      Sum32 wrapped = Sum32WithSeed wrapped 0 ∧
      faviconMurmur b = some
        (if Sum32 wrapped < 2 ^ 31 then (Sum32 wrapped : Int)
         else (Sum32 wrapped : Int) - 2 ^ 32)) ∧
    InsertInto (EncodeToString []) 76 '\n'.toNat = some (str "\n") ∧
    faviconMurmur [] = some (-1840324437) := by
  refine ⟨?_, by decide, by decide⟩
  have hnl : byteOf '\n' = 10 := by decide
  have hnl' : '\n'.toNat = 10 := by decide
  have hasc := EncodeToString_ascii b.length b le_rfl
  have hins := InsertInto_ascii (EncodeToString b) (fun c hc => (hasc c hc).1)
  refine ⟨wrapAux 0 (EncodeToString b) ++ [10], by rw [hnl']; exact hins, ?_, rfl, ?_⟩
  · intro hb
    have hne : EncodeToString b ≠ [] := by
      match b, hb with
      | [a], _ => simp [EncodeToString]
      | [a, b], _ => simp [EncodeToString]
      | a :: b :: c :: rest, _ => simp [EncodeToString]
    rw [wrapAux_chunks _ 0 hne, chunksOf_cons _ hne, hnl]
    simp
  · simp only [faviconMurmur, hnl', hins, Option.map_some']
    rw [int32_eq _ (Sum32_lt _)]

/-! ## Pinned dialling -/

theorem IndexByte_go_append (c : UInt8) (b : GoString) : ∀ (a : GoString) (i : Nat),
    c ∉ a → IndexByte.go c i (a ++ c :: b) = ((i + a.length : Nat) : Int) := by
  intro a
  induction a with
  | nil => intro i _; simp [IndexByte.go]
  | cons x a ih =>
    intro i h
    have hx : x ≠ c := fun e => h (by simp [e])
    have ha : c ∉ a := fun e => h (by simp [e])
    show IndexByte.go c i (x :: (a ++ c :: b)) = _
    rw [IndexByte.go, if_neg hx, ih (i + 1) ha, List.length_cons]
    congr 1
    omega

theorem IndexByte_go_absent (c : UInt8) : ∀ (s : GoString) (i : Nat),
    c ∉ s → IndexByte.go c i s = -1 := by
  intro s
  induction s with
  | nil => intro i _; simp [IndexByte.go]
  | cons x s ih =>
    intro i h
    have hx : x ≠ c := fun e => h (by simp [e])
    have hs : c ∉ s := fun e => h (by simp [e])
    simp only [IndexByte.go, hx, if_false, ih (i + 1) hs]

/-- `net.SplitHostPort` splits `host:port` when neither part holds a colon or a
square bracket. -/
theorem SplitHostPort_join (host port : GoString)
    (hhost : ∀ c ∈ host, c ≠ byteOf ':' ∧ c ≠ byteOf '[' ∧ c ≠ byteOf ']')
    (hport : ∀ c ∈ port, c ≠ byteOf ':' ∧ c ≠ byteOf '[' ∧ c ≠ byteOf ']') :
    SplitHostPort (host ++ str ":" ++ port) = some (host, port) := by
  have hcolon : str ":" = [byteOf ':'] := by decide
  have hne1 : byteOf ':' ≠ byteOf '[' := by decide
  have hne2 : byteOf ':' ≠ byteOf ']' := by decide
  rw [hcolon]
  have e : host ++ [byteOf ':'] ++ port = host ++ byteOf ':' :: port := by simp
  rw [e]
  have hlast : LastIndexByte (host ++ byteOf ':' :: port) (byteOf ':') = (host.length : Int) := by
    have hr : (host ++ byteOf ':' :: port).reverse = port.reverse ++ byteOf ':' :: host.reverse := by
      simp
    have hp : byteOf ':' ∉ port.reverse := by
      intro h; exact (hport _ (List.mem_reverse.mp h)).1 rfl
    have := IndexByte_go_append (byteOf ':') host.reverse port.reverse 0 hp
    simp only [LastIndexByte, IndexByte, hr, this]
    simp only [Nat.zero_add, List.length_reverse, List.length_append, List.length_cons]
    have hnn : ¬ ((port.length : Int) < 0) := by omega
    rw [if_neg hnn]
    push_cast
    omega
  have hmem : ∀ c, c ≠ byteOf ':' → c ∉ host → c ∉ port → c ∉ host ++ byteOf ':' :: port := by
    intro c h1 h2 h3 h
    rcases List.mem_append.mp h with h | h
    · exact h2 h
    · rcases List.mem_cons.mp h with h | h
      · exact h1 h
      · exact h3 h
  have hopen : byteOf '[' ∉ host ++ byteOf ':' :: port :=
    hmem _ hne1.symm (fun h => (hhost _ h).2.1 rfl) (fun h => (hport _ h).2.1 rfl)
  have hclose : byteOf ']' ∉ host ++ byteOf ':' :: port :=
    hmem _ hne2.symm (fun h => (hhost _ h).2.2 rfl) (fun h => (hport _ h).2.2 rfl)
  have hhead : (host ++ byteOf ':' :: port).head? ≠ some (byteOf '[') := by
    intro h
    exact hopen (List.mem_of_mem_head? h)
  have hcol : byteOf ':' ∉ host := fun h => (hhost _ h).1 rfl
  have h1 : ¬ ((host.length : Int) < 0) := by omega
  have htake : (host ++ byteOf ':' :: port).take host.length = host := by simp
  have hdrop : (host ++ byteOf ':' :: port).drop (host.length + 1) = port := by
    rw [← List.drop_drop]; simp
  simp only [SplitHostPort, hlast, h1, if_false, hhead, Int.toNat_ofNat, htake, IndexByte,
    IndexByte_go_absent _ _ 0 hcol, IndexByte_go_absent _ _ 0 hopen,
    IndexByte_go_absent _ _ 0 hclose, List.drop_zero, hdrop]
  have hneg : ¬ ((-1 : Int) ≥ 0) := by decide
  rw [if_neg hneg]
  simp only [List.drop_zero, IndexByte_go_absent _ _ 0 hopen,
    IndexByte_go_absent _ _ 0 hclose, hneg, if_false]

theorem getConn_pin (w : Worker) (req : ConnRequest) :
    (getConn w req).1.resolvedHostname = w.resolvedHostname ∧
    (getConn w req).1.resolvedIP = w.resolvedIP := by
  unfold getConn
  split <;> simp

theorem getConn_dialled (w : Worker) (req : ConnRequest) (addr target : GoString)
    (h : (getConn w req).2 = ConnEvent.dialled addr target) :
    target = dialContext w.resolvedHostname w.resolvedIP addr := by
  unfold getConn at h
  split at h
  · simp at h
  · simp only [ConnEvent.dialled.injEq] at h
    rw [← h.1, ← h.2]

theorem serve_pin : ∀ (requests : List ConnRequest) (w : Worker),
    (serve w requests).1.resolvedHostname = w.resolvedHostname ∧
    (serve w requests).1.resolvedIP = w.resolvedIP := by
  intro requests
  induction requests with
  | nil => intro w; simp [serve]
  | cons req rest ih =>
    intro w
    simp only [serve]
    rw [(ih _).1, (ih _).2]
    exact getConn_pin w req

theorem serve_dialled : ∀ (requests : List ConnRequest) (w : Worker) (addr target : GoString),
    ConnEvent.dialled addr target ∈ (serve w requests).2 →
    target = dialContext w.resolvedHostname w.resolvedIP addr := by
  intro requests
  induction requests with
  | nil => intro w addr target h; simp [serve] at h
  | cons req rest ih =>
    intro w addr target h
    simp only [serve, List.mem_cons] at h
    rcases h with h | h
    · exact getConn_dialled w req addr target h.symm
    · have := ih _ addr target h
      rwa [(getConn_pin w req).1, (getConn_pin w req).2] at this

theorem processRecord_eq {IP : Type} (ipString : IP → GoString) (w : Worker)
    (r : DNSResponse IP) (ip : IP) (rest : List IP) (requests : List ConnRequest)
    (h : r.ips = ip :: rest) :
    processRecord ipString w r requests = some
      (serve { w with resolvedIP := ipString ip, resolvedHostname := normaliseDomain r.domain }
        requests) := by
  simp [processRecord, setPin, h]

theorem dialContext_join (hostname ip host port : GoString)
    (hhost : ∀ c ∈ host, c ≠ byteOf ':' ∧ c ≠ byteOf '[' ∧ c ≠ byteOf ']')
    (hport : ∀ c ∈ port, c ≠ byteOf ':' ∧ c ≠ byteOf '[' ∧ c ≠ byteOf ']') :
    dialContext hostname ip (host ++ str ":" ++ port) =
      if host = hostname then ip ++ str ":" ++ port else host ++ str ":" ++ port := by
  simp only [dialContext, SplitHostPort_join host port hhost hport]
  by_cases h : host = hostname <;> simp [h]

/-- Claim C3. Processing a record sets the pin to (normalised domain, string form
of `ips[0]`) before the record's requests, and every dial of the record goes through
`dialContext` with that pin. A dial address `host:port` is sent to `pinnedIP:port`
when `host` is the pinned hostname and is left unchanged otherwise, also when it
cannot be split. So for two records processed one after the other by the same
worker, with the same domain and different first IPs, every dial to that domain
targets the IP of the record being processed: a dial made for the second record
targets the second record's IP, never the first's. (A request that is served by an
idle connection of the transport is not a dial.) -/
theorem dial_targets_current_pin {IP : Type} (ipString : IP → GoString) :
    (∀ (w : Worker) (r : DNSResponse IP) (ip : IP) (rest : List IP)
        (requests : List ConnRequest), r.ips = ip :: rest →
      ∃ w1 events, processRecord ipString w r requests = some (w1, events) ∧
        w1.resolvedHostname = normaliseDomain r.domain ∧ w1.resolvedIP = ipString ip ∧
        ∀ addr target, ConnEvent.dialled addr target ∈ events →
          target = dialContext (normaliseDomain r.domain) (ipString ip) addr) ∧
    (∀ (hostname ip host port : GoString),
      (∀ c ∈ host, c ≠ byteOf ':' ∧ c ≠ byteOf '[' ∧ c ≠ byteOf ']') →
      (∀ c ∈ port, c ≠ byteOf ':' ∧ c ≠ byteOf '[' ∧ c ≠ byteOf ']') →
      SplitHostPort (host ++ str ":" ++ port) = some (host, port) ∧
      dialContext hostname ip (host ++ str ":" ++ port) =
        if host = hostname then ip ++ str ":" ++ port else host ++ str ":" ++ port) ∧
    (∀ (hostname ip addr : GoString),
      (∀ host port, SplitHostPort addr = some (host, port) →
        dialContext hostname ip addr =
          if host = hostname then ip ++ str ":" ++ port else addr) ∧
      (SplitHostPort addr = none → dialContext hostname ip addr = addr)) ∧
    (∀ (w0 w1 w2 : Worker) (r1 r2 : DNSResponse IP) (ip1 ip2 : IP) (rest1 rest2 : List IP)
        (requests1 requests2 : List ConnRequest) (events1 events2 : List ConnEvent),
      r1.domain = r2.domain → r1.ips = ip1 :: rest1 → r2.ips = ip2 :: rest2 →
      ipString ip1 ≠ ipString ip2 →
      processRecord ipString w0 r1 requests1 = some (w1, events1) →
      processRecord ipString w1 r2 requests2 = some (w2, events2) →
      ∀ addr port target, SplitHostPort addr = some (normaliseDomain r2.domain, port) →
        (ConnEvent.dialled addr target ∈ events1 →
          target = ipString ip1 ++ str ":" ++ port) ∧
        (ConnEvent.dialled addr target ∈ events2 →
          target = ipString ip2 ++ str ":" ++ port ∧
          target ≠ ipString ip1 ++ str ":" ++ port)) := by
  have hrec : ∀ (w : Worker) (r : DNSResponse IP) (ip : IP) (rest : List IP)
      (requests : List ConnRequest) (w1 : Worker) (events : List ConnEvent),
      r.ips = ip :: rest → processRecord ipString w r requests = some (w1, events) →
      w1.resolvedHostname = normaliseDomain r.domain ∧ w1.resolvedIP = ipString ip ∧
      ∀ addr target, ConnEvent.dialled addr target ∈ events →
        target = dialContext (normaliseDomain r.domain) (ipString ip) addr := by
    intro w r ip rest requests w1 events h hp
    rw [processRecord_eq ipString w r ip rest requests h] at hp
    simp only [Option.some.injEq] at hp
    have hpin := serve_pin requests
      { w with resolvedIP := ipString ip, resolvedHostname := normaliseDomain r.domain }
    have hd := serve_dialled requests
      { w with resolvedIP := ipString ip, resolvedHostname := normaliseDomain r.domain }
    rw [hp] at hpin hd
    exact ⟨hpin.1, hpin.2, hd⟩
  refine ⟨?_, ?_, ?_, ?_⟩
  · intro w r ip rest requests h
    refine ⟨_, _, processRecord_eq ipString w r ip rest requests h, ?_⟩
    exact hrec w r ip rest requests _ _ h (processRecord_eq ipString w r ip rest requests h)
  · intro hostname ip host port hhost hport
    exact ⟨SplitHostPort_join host port hhost hport,
      dialContext_join hostname ip host port hhost hport⟩
  · intro hostname ip addr
    constructor
    · intro host port h
      by_cases e : host = hostname <;> simp [dialContext, h, e]
    · intro h
      simp [dialContext, h]
  · intro w0 w1 w2 r1 r2 ip1 ip2 rest1 rest2 requests1 requests2 events1 events2
      hdom h1 h2 hne hp1 hp2 addr port target hsplit
    obtain ⟨_, _, hd1⟩ := hrec w0 r1 ip1 rest1 requests1 w1 events1 h1 hp1
    obtain ⟨_, _, hd2⟩ := hrec w1 r2 ip2 rest2 requests2 w2 events2 h2 hp2
    have hj : ∀ ip, dialContext (normaliseDomain r2.domain) ip addr = ip ++ str ":" ++ port := by
      intro ip
      simp [dialContext, hsplit]
    constructor
    · intro hm
      have := hd1 _ _ hm
      rw [hdom, hj] at this
      exact this
    · intro hm
      have := hd2 _ _ hm
      rw [hj] at this
      refine ⟨this, ?_⟩
      rw [this]
      intro e
      exact hne (List.append_cancel_right (List.append_cancel_right e)).symm

/-- Claim C3 on two records for `example.com`, the first with IP 192.0.2.1 and the
second with IP 192.0.2.2, each followed by a dial of `example.com:443`; an IP is
given by its string form. -/
theorem dial_targets_current_pin_witness :
    processRecord id Worker.start ⟨str "example.com", [str "192.0.2.1"]⟩
      [⟨⟨str "https", str "example.com:443"⟩, false, false⟩] =
      some (⟨str "example.com", str "192.0.2.1", []⟩,
        [ConnEvent.dialled (str "example.com:443") (str "192.0.2.1:443")]) ∧
    processRecord id ⟨str "example.com", str "192.0.2.1", []⟩
      ⟨str "example.com", [str "192.0.2.2"]⟩
      [⟨⟨str "https", str "example.com:443"⟩, false, false⟩] =
      some (⟨str "example.com", str "192.0.2.2", []⟩,
        [ConnEvent.dialled (str "example.com:443") (str "192.0.2.2:443")]) ∧
    SplitHostPort (str "example.com:443") = some (str "example.com", str "443") ∧
    str "192.0.2.2:443" = str "192.0.2.2" ++ str ":" ++ str "443" ∧
    str "192.0.2.2:443" ≠ str "192.0.2.1" ++ str ":" ++ str "443" :=
  ⟨by decide, by decide, by decide,
   ((dial_targets_current_pin (id : GoString → GoString)).2.2.2
      Worker.start ⟨str "example.com", str "192.0.2.1", []⟩
      ⟨str "example.com", str "192.0.2.2", []⟩
      ⟨str "example.com", [str "192.0.2.1"]⟩ ⟨str "example.com", [str "192.0.2.2"]⟩
      (str "192.0.2.1") (str "192.0.2.2") [] []
      [⟨⟨str "https", str "example.com:443"⟩, false, false⟩]
      [⟨⟨str "https", str "example.com:443"⟩, false, false⟩]
      [ConnEvent.dialled (str "example.com:443") (str "192.0.2.1:443")]
      [ConnEvent.dialled (str "example.com:443") (str "192.0.2.2:443")]
      rfl rfl rfl (by decide) (by decide) (by decide)
      (str "example.com:443") (str "443") (str "192.0.2.2:443") (by decide)).2 (by decide)⟩

/-- A request that needs no dial: the transport is the worker's, so a connection
that the first record dialled to 192.0.2.1 and left idle serves the second record's
request for `example.com:443`, although the pin is 192.0.2.2 by then; the dial for
`example.com:80` goes to the new pin. -/
theorem idle_connection_outlives_pin :
    processRecord id Worker.start ⟨str "example.com", [str "192.0.2.1"]⟩
      [⟨⟨str "https", str "example.com:443"⟩, true, true⟩] =
      some (⟨str "example.com", str "192.0.2.1",
          [⟨⟨str "https", str "example.com:443"⟩, str "192.0.2.1:443"⟩]⟩,
        [ConnEvent.dialled (str "example.com:443") (str "192.0.2.1:443")]) ∧
    processRecord id
      ⟨str "example.com", str "192.0.2.1",
        [⟨⟨str "https", str "example.com:443"⟩, str "192.0.2.1:443"⟩]⟩
      ⟨str "example.com", [str "192.0.2.2"]⟩
      [⟨⟨str "https", str "example.com:443"⟩, true, true⟩,
       ⟨⟨str "http", str "example.com:80"⟩, true, true⟩] =
      some (⟨str "example.com", str "192.0.2.2",
          [⟨⟨str "http", str "example.com:80"⟩, str "192.0.2.2:80"⟩,
           ⟨⟨str "https", str "example.com:443"⟩, str "192.0.2.1:443"⟩]⟩,
        [ConnEvent.reused (str "example.com:443") (str "192.0.2.1:443"),
         ConnEvent.dialled (str "example.com:80") (str "192.0.2.2:80")]) := by
  decide

/-! ## Domain normalisation -/

theorem marker_eq : str "*." = [42, 46] := by decide

theorem Index_go_shift (old : GoString) (hold : old ≠ []) : ∀ (s : GoString) (i : Nat),
    (Index.go old 0 s = -1 ∧ Index.go old i s = -1) ∨
      ∃ j : Nat, Index.go old 0 s = (j : Int) ∧ Index.go old i s = ((i + j : Nat) : Int) := by
  intro s
  induction s with
  | nil => intro i; left; simp [Index.go, hold]
  | cons c t ih =>
    intro i
    by_cases hp : HasPrefix (c :: t) old = true
    · right; exact ⟨0, by simp [Index.go, hp], by simp [Index.go, hp]⟩
    · rcases ih 1 with ⟨h0, h1⟩ | ⟨j, h0, h1⟩
      · left
        rcases ih (i + 1) with ⟨_, h2⟩ | ⟨j, h0', _⟩
        · simp [Index.go, hp, h1, h2]
        · rw [h0] at h0'; omega
      · right
        rcases ih (i + 1) with ⟨h0', _⟩ | ⟨j', h0', h2⟩
        · rw [h0] at h0'; omega
        · have : j' = j := by rw [h0] at h0'; omega
          subst this
          refine ⟨1 + j', by simp [Index.go, hp, h1], ?_⟩
          simp only [Index.go, hp, h2]
          simp
          omega

theorem Index_cons (old : GoString) (hold : old ≠ []) (c : UInt8) (t : GoString) :
    Index (c :: t) old =
      if HasPrefix (c :: t) old = true then 0
      else if Index t old = -1 then -1 else Index t old + 1 := by
  unfold Index
  by_cases hp : HasPrefix (c :: t) old = true
  · simp [Index.go, hp]
  · rcases Index_go_shift old hold t 1 with ⟨h0, h1⟩ | ⟨j, h0, h1⟩
    · simp [Index.go, hp, h0, h1]
    · have : (j : Int) ≠ -1 := by omega
      simp only [Index.go, hp, h0, h1, this, if_false]
      simp
      omega

theorem Index_range (old : GoString) (hold : old ≠ []) (s : GoString) :
    Index s old = -1 ∨ ∃ j : Nat, Index s old = (j : Int) := by
  rcases Index_go_shift old hold s 0 with ⟨h0, _⟩ | ⟨j, h0, _⟩
  · left; exact h0
  · right; exact ⟨j, h0⟩

theorem Replace_loop_shift (old new : GoString) (hold : old ≠ []) :
    ∀ (k : Nat) (s : GoString) (i start : Nat) (b : GoString),
      Replace.loop s old new k i start b =
        b ++ Replace.loop (s.drop start) old new k 0 0 [] := by
  intro k
  induction k with
  | zero => intro s i start b; simp [Replace.loop]
  | succ k ih =>
    intro s i start b
    simp only [Replace.loop, hold, if_false, List.drop_zero, Nat.zero_add, List.nil_append,
      Nat.add_sub_cancel_left, Nat.sub_zero]
    rw [ih s, ih (s.drop start)]
    simp [List.drop_drop, Nat.add_assoc, Nat.add_comm]

theorem Count_go_none (old : GoString) (fuel : Nat) (s : GoString) (h : Index s old = -1) :
    Count.go old (fuel + 1) s = 0 := by
  simp [Count.go, h]

theorem Count_go_some (old : GoString) (fuel : Nat) (s : GoString) (j : Nat)
    (h : Index s old = (j : Int)) :
    Count.go old (fuel + 1) s = Count.go old fuel (s.drop (j + old.length)) + 1 := by
  have : (j : Int) ≠ -1 := by omega
  simp [Count.go, h, this, Nat.add_comm]

theorem Replace_loop_some (old new : GoString) (hold : old ≠ []) (c : Nat) (s : GoString)
    (j : Nat) (h : Index s old = (j : Int)) :
    Replace.loop s old new (c + 1) 0 0 [] =
      s.take j ++ new ++ Replace.loop (s.drop (j + old.length)) old new c 0 0 [] := by
  simp only [Replace.loop, hold, if_false, List.drop_zero, Nat.zero_add, List.nil_append,
    Nat.sub_zero, h, Int.toNat_ofNat]
  rw [Replace_loop_shift old new hold]

theorem HasPrefix_marker (a : UInt8) (t : GoString) :
    HasPrefix (a :: t) [42, 46] = true ↔ a = 42 ∧ ∃ t', t = 46 :: t' := by
  cases t with
  | nil => simp [HasPrefix, List.isPrefixOf]
  | cons b t' =>
    simp [HasPrefix, List.isPrefixOf]
    constructor
    · rintro ⟨h1, h2⟩; exact ⟨h1.symm, h2.symm⟩
    · rintro ⟨h1, h2⟩; exact ⟨h1.symm, h2.symm⟩

theorem Replace_loop_marker : ∀ (n : Nat) (s : GoString), s.length ≤ n →
    ∀ fuel, s.length < fuel →
      Replace.loop s [42, 46] [] (Count.go [42, 46] fuel s) 0 0 [] = stripMarkers s := by
  have hold : ([42, 46] : GoString) ≠ [] := by simp
  have hstar : byteOf '*' = 42 := by decide
  have hdot : byteOf '.' = 46 := by decide
  intro n
  induction n with
  | zero =>
    intro s hs fuel hf
    have : s = [] := List.length_eq_zero.mp (by omega)
    subst this
    cases fuel with
    | zero => simp at hf
    | succ f => simp [Count.go, Index, Index.go, Replace.loop, stripMarkers]
  | succ n ih =>
    intro s hs fuel hf
    cases fuel with
    | zero => simp at hf
    | succ f =>
      match s, hs, hf with
      | [], _, _ => simp [Count.go, Index, Index.go, Replace.loop, stripMarkers]
      | [a], _, _ =>
        have : Index [a] [42, 46] = -1 := by
          simp [Index, Index.go, HasPrefix, List.isPrefixOf]
        rw [Count_go_none _ _ _ this]
        simp [Replace.loop, stripMarkers]
      | a :: b :: t, hs, hf =>
        simp only [List.length_cons] at hs hf
        by_cases hm : a = 42 ∧ b = 46
        · have hp : HasPrefix (a :: b :: t) [42, 46] = true :=
            (HasPrefix_marker a (b :: t)).mpr ⟨hm.1, t, by rw [hm.2]⟩
          have hi : Index (a :: b :: t) [42, 46] = ((0 : Nat) : Int) := by
            rw [Index_cons _ hold, if_pos hp]; rfl
          rw [Count_go_some _ _ _ 0 hi, Replace_loop_some _ _ hold _ _ 0 hi]
          simp only [List.take_zero, List.nil_append, Nat.zero_add, List.length_cons,
            List.length_nil, List.drop_succ_cons, List.drop_zero]
          rw [ih t (by omega) f (by omega)]
          simp [stripMarkers, hstar, hdot, hm]
        · have hp : ¬ HasPrefix (a :: b :: t) [42, 46] = true := by
            rw [HasPrefix_marker]
            rintro ⟨h1, t', h2⟩
            exact hm ⟨h1, by simpa using (List.cons.inj h2).1⟩
          have hsm : stripMarkers (a :: b :: t) = a :: stripMarkers (b :: t) := by
            simp [stripMarkers, hstar, hdot, hm]
          have ih' := ih (b :: t) (by simp; omega) (f + 1) (by simp; omega)
          rw [hsm, ← ih']
          rcases Index_range _ hold (b :: t) with h | ⟨j, h⟩
          · have hi : Index (a :: b :: t) [42, 46] = -1 := by
              rw [Index_cons _ hold, if_neg hp, if_pos h]
            rw [Count_go_none _ _ _ hi, Count_go_none _ _ _ h]
            simp [Replace.loop]
          · have hj : (j : Int) ≠ -1 := by omega
            have hi : Index (a :: b :: t) [42, 46] = ((j + 1 : Nat) : Int) := by
              rw [Index_cons _ hold, if_neg hp, h, if_neg hj]; simp
            rw [Count_go_some _ _ _ _ hi, Count_go_some _ _ _ _ h,
              Replace_loop_some _ _ hold _ _ _ hi, Replace_loop_some _ _ hold _ _ _ h]
            have e : j + 1 + ([42, 46] : GoString).length = (j + ([42, 46] : GoString).length) + 1 := by
              omega
            rw [e]
            simp

theorem normaliseDomain_eq_stripMarkers (d : GoString) :
    normaliseDomain d = stripMarkers (TrimSpace d) := by
  have hold : ([42, 46] : GoString) ≠ [] := by simp
  have hB := Replace_loop_marker (TrimSpace d).length (TrimSpace d) le_rfl
    ((TrimSpace d).length + 1) (by omega)
  have hempty : str "" = [] := by decide
  simp only [normaliseDomain, marker_eq, hempty, Contains, ReplaceAll, Replace, Count, hold,
    if_false]
  rcases Index_range _ hold (TrimSpace d) with h | ⟨j, h⟩
  · rw [Count_go_none _ _ _ h] at hB
    simp only [Replace.loop, List.drop_zero, List.nil_append] at hB
    simp only [h]
    simpa using hB
  · have hge : (j : Int) ≥ 0 := by omega
    simp only [h, hge, decide_True, if_true]
    by_cases hm : Count.go [42, 46] ((TrimSpace d).length + 1) (TrimSpace d) = 0
    · rw [hm] at hB
      simp only [Replace.loop, List.drop_zero, List.nil_append] at hB
      simp only [hm, if_true]
      exact hB
    · simp only [hm, if_false]
      simpa using hB

theorem stripMarkers_of_not_infix : ∀ (n : Nat) (s : GoString), s.length ≤ n →
    ¬ ([42, 46] : GoString) <:+: s → stripMarkers s = s := by
  have hstar : byteOf '*' = 42 := by decide
  have hdot : byteOf '.' = 46 := by decide
  intro n
  induction n with
  | zero =>
    intro s hs _
    have : s = [] := List.length_eq_zero.mp (by omega)
    subst this; simp [stripMarkers]
  | succ n ih =>
    intro s hs h
    match s, hs, h with
    | [], _, _ => simp [stripMarkers]
    | [a], _, _ => simp [stripMarkers]
    | a :: b :: t, hs, h =>
      have hm : ¬ (a = 42 ∧ b = 46) := by
        rintro ⟨rfl, rfl⟩
        exact h ⟨[], t, by simp⟩
      have ht : ¬ ([42, 46] : GoString) <:+: (b :: t) := by
        rintro ⟨u, v, e⟩
        exact h ⟨a :: u, v, by simp [← e]⟩
      simp only [stripMarkers, hstar, hdot, hm, if_false]
      rw [ih (b :: t) (by simp at hs ⊢; omega) ht]

theorem not_infix_of_no_star (s : GoString) (h : ∀ c ∈ s, c ≠ 42) :
    ¬ ([42, 46] : GoString) <:+: s := by
  rintro ⟨u, v, e⟩
  exact h 42 (by rw [← e]; simp) rfl

theorem stripMarkers_append_marker (t2 : GoString) : ∀ (t1 : GoString),
    ¬ ([42, 46] : GoString) <:+: t1 →
    stripMarkers (t1 ++ [42, 46] ++ t2) = t1 ++ stripMarkers t2 := by
  have hstar : byteOf '*' = 42 := by decide
  have hdot : byteOf '.' = 46 := by decide
  intro t1
  induction t1 with
  | nil => intro _; simp [stripMarkers, hstar, hdot]
  | cons a t1 ih =>
    intro h
    have ht : ¬ ([42, 46] : GoString) <:+: t1 := by
      rintro ⟨u, v, e⟩
      exact h ⟨a :: u, v, by simp [← e]⟩
    have ih' := ih ht
    cases t1 with
    | nil =>
      simp only [List.nil_append, List.cons_append] at ih' ⊢
      have hm : ¬ (a = 42 ∧ (42 : UInt8) = 46) := by
        rintro ⟨_, h2⟩; exact absurd h2 (by decide)
      simp only [stripMarkers, hstar, hdot, hm, if_false] at ih' ⊢
      rw [ih']
    | cons b t1 =>
      have hm : ¬ (a = 42 ∧ b = 46) := by
        rintro ⟨rfl, rfl⟩
        exact h ⟨[], t1, by simp⟩
      simp only [List.cons_append] at ih' ⊢
      simp only [stripMarkers, hstar, hdot, hm, if_false]
      rw [ih']

theorem Decode_width (c : UInt8) (t : GoString) :
    1 ≤ (DecodeRuneInString (c :: t)).2 ∧ (DecodeRuneInString (c :: t)).2 ≤ t.length + 1 := by
  rcases t with _ | ⟨s1, _ | ⟨s2, _ | ⟨s3, t3⟩⟩⟩ <;>
    simp only [DecodeRuneInString] <;>
    split_ifs <;>
    simp only [List.length_cons, List.length_nil] <;>
    omega

theorem drop_eq_getD_cons (s : GoString) (k : Nat) (h : k < s.length) :
    s.drop k = s.getD k 0 :: s.drop (k + 1) := by
  rw [List.getD_eq_getElem _ _ h]
  exact List.drop_eq_getElem_cons h

theorem scan_le (s : GoString) (lim : Int) : ∀ (fuel : Nat) (start : Int),
    DecodeLastRuneInString.scan s lim fuel start ≤ start := by
  intro fuel
  induction fuel with
  | zero => intro start; simp [DecodeLastRuneInString.scan]
  | succ fuel ih =>
    intro start
    simp only [DecodeLastRuneInString.scan]
    split_ifs
    · exact le_rfl
    · exact le_trans (ih _) (by omega)
    · exact le_rfl

theorem DecodeLast_spec (s : GoString) (hs : s ≠ []) :
    1 ≤ (DecodeLastRuneInString s).2 ∧ (DecodeLastRuneInString s).2 ≤ s.length ∧
    (((s.getD (s.length - (DecodeLastRuneInString s).2) 0).toNat ≥ 0x80 ∧
        (DecodeRuneInString (s.drop (s.length - (DecodeLastRuneInString s).2))).2 =
          (DecodeLastRuneInString s).2) ∨
      ((s.getD (s.length - (DecodeLastRuneInString s).2) 0).toNat < 0x80 ∧
        (DecodeLastRuneInString s).2 = 1)) := by
  have hn : 0 < s.length := List.length_pos.mpr hs
  have hn0 : ¬ ((s.length : Int) = 0) := by omega
  have hlast : ((s.length : Int) - 1).toNat = s.length - 1 := by omega
  -- the decoding of the last byte alone
  have hone : (DecodeRuneInString (s.drop (s.length - 1))).2 = 1 := by
    rw [drop_eq_getD_cons s (s.length - 1) (by omega)]
    have e : s.length - 1 + 1 = s.length := by omega
    rw [e, List.drop_length]
    have := Decode_width (s.getD (s.length - 1) 0) []
    simp only [List.length_nil] at this
    omega
  unfold DecodeLastRuneInString
  simp only [hn0, if_false, hlast]
  by_cases hr : (s.getD (s.length - 1) 0).toNat < 0x80
  · rw [if_pos hr]
    exact ⟨le_rfl, by dsimp only; omega, Or.inr ⟨hr, rfl⟩⟩
  · simp only [if_neg hr]
    generalize (if (s.length : Int) - 4 < 0 then (0 : Int) else (s.length : Int) - 4) = lim
    have hsc := scan_le s lim 4 ((s.length : Int) - 1 - 1)
    generalize DecodeLastRuneInString.scan s lim 4 ((s.length : Int) - 1 - 1) = sc at hsc
    generalize hst : (if sc < 0 then (0 : Int) else sc) = start
    have hst0 : 0 ≤ start := by
      rw [← hst]; split_ifs <;> omega
    have hst1 : start < s.length := by
      rw [← hst]; split_ifs <;> omega
    by_cases hm : start + ((DecodeRuneInString (s.drop start.toNat)).2 : Int) ≠ (s.length : Int)
    · simp only [if_pos hm]
      exact ⟨le_rfl, by omega, Or.inl ⟨by omega, hone⟩⟩
    · simp only [if_neg hm]
      have hm' : start + ((DecodeRuneInString (s.drop start.toNat)).2 : Int) = (s.length : Int) :=
        not_not.mp hm
      have hk : start.toNat < s.length := by omega
      have hd := drop_eq_getD_cons s start.toNat hk
      have hw := Decode_width (s.getD start.toNat 0) (s.drop (start.toNat + 1))
      rw [← hd] at hw
      have hidx : s.length - (DecodeRuneInString (s.drop start.toNat)).2 = start.toNat := by
        omega
      refine ⟨hw.1, by omega, ?_⟩
      rw [hidx]
      by_cases hb : (s.getD start.toNat 0).toNat < 0x80
      · right
        refine ⟨hb, ?_⟩
        rw [hd, DecodeRuneInString_ascii _ _ hb]
      · left
        exact ⟨by omega, rfl⟩

theorem TrimRightFunc_fixed (s : GoString) (f : Rune → Bool) (hs : s ≠ [])
    (hf : f (DecodeLastRuneInString s).1 = false) : TrimRightFunc s f = s := by
  have hn : 0 < s.length := List.length_pos.mpr hs
  obtain ⟨h1, h2, h3⟩ := DecodeLast_spec s hs
  have hgo : ∀ fuel, lastIndexFunc.go s f false (fuel + 1) s.length =
      ((s.length - (DecodeLastRuneInString s).2 : Nat) : Int) := by
    intro fuel
    simp [lastIndexFunc.go, hn, List.take_length, hf]
  have hidx : lastIndexFunc s f false =
      ((s.length - (DecodeLastRuneInString s).2 : Nat) : Int) := by
    unfold lastIndexFunc
    obtain ⟨k, hk⟩ : ∃ k, s.length = k + 1 := ⟨s.length - 1, by omega⟩
    conv_lhs => rw [show lastIndexFunc.go s f false s.length s.length =
      lastIndexFunc.go s f false (k + 1) s.length by rw [← hk]]
    exact hgo k
  unfold TrimRightFunc
  simp only [hidx, Int.toNat_ofNat]
  have hnn : ((s.length - (DecodeLastRuneInString s).2 : Nat) : Int) ≥ 0 := by omega
  rcases h3 with ⟨h3a, h3b⟩ | ⟨h3a, h3b⟩
  · have hc : ((s.length - (DecodeLastRuneInString s).2 : Nat) : Int) ≥ 0 ∧
        (s.getD (s.length - (DecodeLastRuneInString s).2) 0).toNat ≥ 0x80 := ⟨hnn, h3a⟩
    rw [if_pos hc, h3b]
    have : ((((s.length - (DecodeLastRuneInString s).2 : Nat) : Int) +
        ((DecodeLastRuneInString s).2 : Int))).toNat = s.length := by omega
    rw [this, List.take_length]
  · have hc : ¬ (((s.length - (DecodeLastRuneInString s).2 : Nat) : Int) ≥ 0 ∧
        (s.getD (s.length - (DecodeLastRuneInString s).2) 0).toNat ≥ 0x80) := by
      rintro ⟨_, h⟩; omega
    rw [if_neg hc]
    have : ((((s.length - (DecodeLastRuneInString s).2 : Nat) : Int) + 1)).toNat = s.length := by
      omega
    rw [this, List.take_length]

theorem TrimLeftFunc_fixed (s : GoString) (f : Rune → Bool) (hs : s ≠ [])
    (hf : f (DecodeRuneInString s).1 = false) : TrimLeftFunc s f = s := by
  obtain ⟨c, t, rfl⟩ := List.exists_cons_of_ne_nil hs
  simp [TrimLeftFunc, indexFunc, rangeString, rangeFrom, hf]

theorem IsSpace_ascii (c : UInt8) (h : c.toNat < 0x80) : IsSpace c.toNat = asciiSpace c := by
  have key : ∀ n < 0x80, IsSpace n = asciiSpace n.toUInt8 := by decide
  have := key c.toNat h
  rwa [toUInt8_toNat] at this

theorem TrimSpace_fixed_runes (name : GoString)
    (hfirst : name ≠ [] → IsSpace (DecodeRuneInString name).1 = false)
    (hlast : name ≠ [] → IsSpace (DecodeLastRuneInString name).1 = false) :
    TrimSpace name = name := by
  cases name with
  | nil => simp [TrimSpace]
  | cons c t =>
    have hne : c :: t ≠ [] := by simp
    have hf := hfirst hne
    have hl := hlast hne
    by_cases hc : c.toNat ≥ 0x80
    · simp only [TrimSpace, if_pos hc, TrimFunc]
      rw [TrimLeftFunc_fixed _ _ hne hf, TrimRightFunc_fixed _ _ hne hl]
    · have hc' : c.toNat < 0x80 := by omega
      rw [DecodeRuneInString_ascii c t hc', IsSpace_ascii c hc'] at hf
      simp only [TrimSpace, if_neg hc, hf, Bool.false_eq_true, if_false]
      have e : (c :: t).reverse = (c :: t).getLast hne :: (c :: t).dropLast.reverse := by
        conv_lhs => rw [← List.dropLast_append_getLast hne]
        simp
      rw [e]
      by_cases hb : ((c :: t).getLast hne).toNat ≥ 0x80
      · simp only [TrimSpace.stop, if_pos hb]
        rw [← e, List.reverse_reverse, TrimRightFunc_fixed _ _ hne hl]
      · have hb' : ((c :: t).getLast hne).toNat < 0x80 := by omega
        have hdl : DecodeLastRuneInString (c :: t) = (((c :: t).getLast hne).toNat, 1) := by
          have hg : (c :: t).getD ((c :: t).length - 1) 0 = (c :: t).getLast hne := by
            rw [List.getD_eq_getElem _ _ (by simp), List.getLast_eq_getElem]
          have hn0 : ¬ (((c :: t).length : Int) = 0) := by simp; omega
          have hlast' : (((c :: t).length : Int) - 1).toNat = (c :: t).length - 1 := by omega
          unfold DecodeLastRuneInString
          simp only [hn0, if_false, hlast', hg, if_pos hb']
        rw [hdl, IsSpace_ascii _ hb'] at hl
        simp only [TrimSpace.stop, if_neg hb, hl, Bool.false_eq_true, if_false]
        rw [← e, List.reverse_reverse]

/-- Claim C7, counterexample: the trimmed domain `a.*.b` does not start with `"*."`,
yet it is not kept as it is: the marker in the middle is removed, giving `a.b`. -/
theorem normaliseDomain_inner_marker_removed :
    HasPrefix (TrimSpace (str "a.*.b")) (str "*.") = false ∧
    normaliseDomain (str "a.*.b") ≠ TrimSpace (str "a.*.b") ∧
    normaliseDomain (str "a.*.b") = str "a.b" := by decide

/-- Claim C7, amended. For every domain string `d` the normalised domain is the
whitespace-trimmed `d` with every instance of `"*."` removed, scanning from left to
right; it is the trimmed `d` itself when that holds no `"*."`, and when the trimmed
`d` is `t1 ++ "*." ++ t2` with no `"*."` inside `t1` or `t2` it is `t1 ++ t2`: the
marker is removed at the start (`t1` empty) and anywhere else alike. -/
theorem normaliseDomain_removes_every_marker (d : GoString) :
    normaliseDomain d = stripMarkers (TrimSpace d) ∧
    (¬ str "*." <:+: TrimSpace d → normaliseDomain d = TrimSpace d) ∧
    (∀ t1 t2 : GoString, TrimSpace d = t1 ++ str "*." ++ t2 →
      ¬ str "*." <:+: t1 → ¬ str "*." <:+: t2 → normaliseDomain d = t1 ++ t2) := by
  rw [marker_eq]
  refine ⟨normaliseDomain_eq_stripMarkers d, ?_, ?_⟩
  · intro h
    rw [normaliseDomain_eq_stripMarkers, stripMarkers_of_not_infix _ _ le_rfl h]
  · intro t1 t2 e h1 h2
    rw [normaliseDomain_eq_stripMarkers, e, stripMarkers_append_marker t2 t1 h1,
      stripMarkers_of_not_infix _ _ le_rfl h2]

/-- Claim C7, amended, at the domains ` *.example.com ` and `a.*.b`. -/
theorem normaliseDomain_removes_every_marker_witness :
    normaliseDomain (str " *.example.com ") = str "example.com" ∧
    normaliseDomain (str "a.*.b") = str "a." ++ str "b" :=
  ⟨(normaliseDomain_removes_every_marker (str " *.example.com ")).2.2 [] (str "example.com")
      (by decide) (not_infix_of_no_star _ (by decide)) (not_infix_of_no_star _ (by decide)),
   (normaliseDomain_removes_every_marker (str "a.*.b")).2.2 (str "a.") (str "b")
      (by decide) (not_infix_of_no_star _ (by decide)) (not_infix_of_no_star _ (by decide))⟩

/-- Claim C6, counterexample: `**..` normalises to `*.`, which normalises to the
empty string. -/
theorem normaliseDomain_not_idempotent :
    normaliseDomain (str "**..") = str "*." ∧
    normaliseDomain (normaliseDomain (str "**..")) = str "" ∧
    normaliseDomain (normaliseDomain (str "**..")) ≠ normaliseDomain (str "**..") := by
  decide

theorem TrimLeftFunc_sublist (s : GoString) (f : Rune → Bool) :
    (TrimLeftFunc s f).Sublist s := by
  unfold TrimLeftFunc
  simp only []
  split_ifs
  · exact List.nil_sublist _
  · exact List.drop_sublist _ _

theorem TrimRightFunc_sublist (s : GoString) (f : Rune → Bool) :
    (TrimRightFunc s f).Sublist s := by
  unfold TrimRightFunc
  exact List.take_sublist _ _

theorem TrimSpace_stop_sublist : ∀ (rev : List UInt8),
    (TrimSpace.stop rev).Sublist rev.reverse := by
  intro rev
  induction rev with
  | nil => simp [TrimSpace.stop]
  | cons c rev ih =>
    simp only [TrimSpace.stop]
    split_ifs
    · exact TrimRightFunc_sublist _ _
    · rw [List.reverse_cons]
      exact ih.trans (List.sublist_append_left _ _)
    · exact List.Sublist.refl _

theorem TrimSpace_sublist : ∀ (s : GoString), (TrimSpace s).Sublist s := by
  intro s
  induction s with
  | nil => simp [TrimSpace]
  | cons c t ih =>
    simp only [TrimSpace]
    split_ifs
    · exact (TrimRightFunc_sublist _ _).trans (TrimLeftFunc_sublist _ _)
    · exact ih.trans (List.sublist_cons_self _ _)
    · have := TrimSpace_stop_sublist (c :: t).reverse
      rwa [List.reverse_reverse] at this

theorem stripMarkers_length_le : ∀ (n : Nat) (s : GoString), s.length ≤ n →
    (stripMarkers s).length ≤ s.length := by
  intro n
  induction n with
  | zero =>
    intro s hs
    have : s = [] := List.length_eq_zero.mp (by omega)
    subst this; simp [stripMarkers]
  | succ n ih =>
    intro s hs
    match s, hs with
    | [], _ => simp [stripMarkers]
    | [a], _ => simp [stripMarkers]
    | a :: b :: t, hs =>
      simp only [List.length_cons] at hs
      simp only [stripMarkers]
      split_ifs
      · have := ih t (by omega)
        simp only [List.length_cons]; omega
      · have := ih (b :: t) (by simp only [List.length_cons]; omega)
        simp only [List.length_cons] at this ⊢; omega

theorem stripMarkers_length_lt : ∀ (n : Nat) (s : GoString), s.length ≤ n →
    ([42, 46] : GoString) <:+: s → (stripMarkers s).length < s.length := by
  have hstar : byteOf '*' = 42 := by decide
  have hdot : byteOf '.' = 46 := by decide
  intro n
  induction n with
  | zero =>
    intro s hs h
    have : s = [] := List.length_eq_zero.mp (by omega)
    subst this
    obtain ⟨u, v, e⟩ := h
    simp at e
  | succ n ih =>
    intro s hs h
    match s, hs, h with
    | [], _, h => obtain ⟨u, v, e⟩ := h; simp at e
    | [a], _, h =>
      obtain ⟨u, v, e⟩ := h
      have := congrArg List.length e
      simp at this
      omega
    | a :: b :: t, hs, h =>
      simp only [List.length_cons] at hs
      by_cases hm : a = 42 ∧ b = 46
      · have := stripMarkers_length_le t.length t le_rfl
        simp only [stripMarkers, hstar, hdot, hm, and_self, if_true, List.length_cons]
        omega
      · have ht : ([42, 46] : GoString) <:+: (b :: t) := by
          obtain ⟨u, v, e⟩ := h
          cases u with
          | nil =>
            simp only [List.nil_append, List.cons_append, List.cons.injEq] at e
            exact absurd ⟨e.1.symm, e.2.1.symm⟩ hm
          | cons x u =>
            simp only [List.cons_append, List.cons.injEq] at e
            exact ⟨u, v, by simpa using e.2⟩
        have := ih (b :: t) (by simp only [List.length_cons]; omega) ht
        simp only [stripMarkers, hstar, hdot, hm, if_false, List.length_cons] at this ⊢
        omega

/-- Claim C6, amended. Domain normalisation is idempotent at `d` exactly when the
normalised `d` contains no `"*."` and `TrimSpace` leaves it unchanged; that is so
whenever the normalised `d` contains no `"*."` and neither begins nor ends with a
whitespace character. -/
theorem normaliseDomain_idempotent_iff (d : GoString) :
    (normaliseDomain (normaliseDomain d) = normaliseDomain d ↔
      (¬ str "*." <:+: normaliseDomain d ∧
        TrimSpace (normaliseDomain d) = normaliseDomain d)) ∧
    (¬ str "*." <:+: normaliseDomain d →
      (normaliseDomain d ≠ [] →
        IsSpace (DecodeRuneInString (normaliseDomain d)).1 = false) →
      (normaliseDomain d ≠ [] →
        IsSpace (DecodeLastRuneInString (normaliseDomain d)).1 = false) →
      normaliseDomain (normaliseDomain d) = normaliseDomain d) := by
  rw [marker_eq]
  have hsuff : ∀ r : GoString, ¬ ([42, 46] : GoString) <:+: r → TrimSpace r = r →
      normaliseDomain r = r := by
    intro r h1 h2
    rw [normaliseDomain_eq_stripMarkers, h2, stripMarkers_of_not_infix _ _ le_rfl h1]
  refine ⟨⟨?_, fun h => hsuff _ h.1 h.2⟩, ?_⟩
  · intro h
    generalize normaliseDomain d = r at h
    rw [normaliseDomain_eq_stripMarkers] at h
    have hsub := TrimSpace_sublist r
    have hle := stripMarkers_length_le _ (TrimSpace r) le_rfl
    have hlen : (TrimSpace r).length = r.length := by
      have h1 := hsub.length_le
      have h2 := congrArg List.length h
      omega
    have htrim : TrimSpace r = r := hsub.eq_of_length hlen
    refine ⟨?_, htrim⟩
    intro hin
    rw [htrim] at h
    have := stripMarkers_length_lt _ r le_rfl hin
    rw [h] at this
    omega
  · intro h1 h2 h3
    exact hsuff _ h1 (TrimSpace_fixed_runes _ h2 h3)

/-- Claim C6, amended, at the domains `*.*.example.com` and `a.*.b`. -/
theorem normaliseDomain_idempotent_iff_witness :
    normaliseDomain (str "*.*.example.com") = str "example.com" ∧
    normaliseDomain (normaliseDomain (str "*.*.example.com")) =
      normaliseDomain (str "*.*.example.com") ∧
    normaliseDomain (normaliseDomain (str "a.*.b")) = normaliseDomain (str "a.*.b") ∧
    ¬ (¬ str "*." <:+: normaliseDomain (str "**..") ∧
        TrimSpace (normaliseDomain (str "**..")) = normaliseDomain (str "**..")) :=
  ⟨by decide,
   (normaliseDomain_idempotent_iff (str "*.*.example.com")).2
     (by rw [show normaliseDomain (str "*.*.example.com") = str "example.com" by decide,
          marker_eq]
         exact not_infix_of_no_star _ (by decide))
     (fun _ => by decide) (fun _ => by decide),
   (normaliseDomain_idempotent_iff (str "a.*.b")).1.mpr
     ⟨by rw [show normaliseDomain (str "a.*.b") = str "a.b" by decide, marker_eq]
         exact not_infix_of_no_star _ (by decide),
      by decide⟩,
   fun h => absurd ((normaliseDomain_idempotent_iff (str "**..")).1.mpr h) (by decide)⟩

/-! ## The page scan -/

/-- Claim C4 at the page
`<html><head><title>First</title></head><body><svg><title>Second</title></svg></body></html>`,
which has no icon link: the first `<title>` element holds `First`, and the scan
stores `Second`, the text of the later one. On the tokens of
`<html><head><title>  Example  </title></head>` the stored title is `Example`. -/
theorem extractTitle_later_title_overwrites :
    TrimSpace (firstTitleText
      [⟨.StartTagToken, str "html", []⟩, ⟨.StartTagToken, str "head", []⟩,
       ⟨.StartTagToken, str "title", []⟩, ⟨.TextToken, str "First", []⟩,
       ⟨.EndTagToken, str "title", []⟩, ⟨.EndTagToken, str "head", []⟩,
       ⟨.StartTagToken, str "body", []⟩, ⟨.StartTagToken, str "svg", []⟩,
       ⟨.StartTagToken, str "title", []⟩, ⟨.TextToken, str "Second", []⟩,
       ⟨.EndTagToken, str "title", []⟩, ⟨.EndTagToken, str "svg", []⟩,
       ⟨.EndTagToken, str "body", []⟩, ⟨.EndTagToken, str "html", []⟩]) = str "First" ∧
    extractTitle
      [⟨.StartTagToken, str "html", []⟩, ⟨.StartTagToken, str "head", []⟩,
       ⟨.StartTagToken, str "title", []⟩, ⟨.TextToken, str "First", []⟩,
       ⟨.EndTagToken, str "title", []⟩, ⟨.EndTagToken, str "head", []⟩,
       ⟨.StartTagToken, str "body", []⟩, ⟨.StartTagToken, str "svg", []⟩,
       ⟨.StartTagToken, str "title", []⟩, ⟨.TextToken, str "Second", []⟩,
       ⟨.EndTagToken, str "title", []⟩, ⟨.EndTagToken, str "svg", []⟩,
       ⟨.EndTagToken, str "body", []⟩, ⟨.EndTagToken, str "html", []⟩] = str "Second" ∧
    extractTitle
      [⟨.StartTagToken, str "html", []⟩, ⟨.StartTagToken, str "head", []⟩,
       ⟨.StartTagToken, str "title", []⟩, ⟨.TextToken, str "  Example  ", []⟩,
       ⟨.EndTagToken, str "title", []⟩, ⟨.EndTagToken, str "head", []⟩] = str "Example" := by
  decide

/-! ## The ingestor -/

/-- Claim C8 at the line
`{"name":"","data":{"answers":[{"type":"A","data":"192.0.2.1"}]}}`: it decodes, one
answer has type `"A"`, and the line is not emitted: the ingest step panics. -/
theorem ingestLine_empty_name_not_emitted {IP : Type} (ParseIP : GoString → IP) :
    collectIps ParseIP [{ «Type» := str "A", Data := str "192.0.2.1" }] [] =
      [ParseIP (str "192.0.2.1")] ∧
    ingestLine ParseIP
      (some { Name := str "", Data := { Answers := [{ «Type» := str "A", Data := str "192.0.2.1" }] } })
      = Ingested.panic := by
  exact ⟨rfl, rfl⟩

/-- Claim C9 at the lines
`{"data":{"answers":[{"type":"A","data":"192.0.2.1"}]}}` (no `name`) and
`{"name":"example.com.","data":{"answers":[{"type":"A","data":"192.0.2.2"}]}}`:
the slice `Name[:len(Name)-1]` of the first line panics, and the second line, which
alone would be emitted, is never reached. -/
theorem ingest_stops_at_empty_name {IP : Type} (ParseIP : GoString → IP) :
    sliceInit (str "") = none ∧
    ingest ParseIP
      [some { Name := [], Data := { Answers := [{ «Type» := str "A", Data := str "192.0.2.1" }] } },
       some { Name := str "example.com.",
              Data := { Answers := [{ «Type» := str "A", Data := str "192.0.2.2" }] } }]
      = ([], false) ∧
    (ingest ParseIP
      [some { Name := str "example.com.",
              Data := { Answers := [{ «Type» := str "A", Data := str "192.0.2.2" }] } }]).1.length
      = 1 := by
  exact ⟨rfl, rfl, rfl⟩

/-- Claim C10, counterexample: the name `example.com`, which does not end in a dot,
is not emitted unchanged; its last byte is cut off, giving `example.co`. -/
theorem ingestLine_cuts_name_without_dot :
    ingestLine (fun data => data)
      (some { Name := str "example.com",
              Data := { Answers := [{ «Type» := str "A", Data := str "192.0.2.1" }] } })
      = Ingested.emit { domain := str "example.co", ips := [str "192.0.2.1"] } := by
  rfl

/-- Claim C10, amended. For every decoded line that is emitted and whose name ends in
`'.'`, the emitted name is the decoded name with exactly that one trailing `'.'`
removed: `example.com.` gives `example.com` and `a..` gives `a.`. -/
theorem ingestLine_strips_one_trailing_dot {IP : Type} (ParseIP : GoString → IP)
    (massdnsOutput : MassDNSOutput) (r : DNSResponse IP) (name : GoString)
    (hname : massdnsOutput.Name = name ++ str ".")
    (hemit : ingestLine ParseIP (some massdnsOutput) = Ingested.emit r) :
    r.domain = name ∧ r.domain ++ str "." = massdnsOutput.Name ∧
    sliceInit (str "example.com.") = some (str "example.com") ∧
    sliceInit (str "a..") = some (str "a.") := by
  have hdot : str "." = [46] := by decide
  have hs : sliceInit massdnsOutput.Name = some name := by
    rw [hname, hdot]
    have h1 : ¬ (((name ++ [46]).length : Int) - 1 < 0) := by
      simp only [List.length_append, List.length_singleton]; push_cast; omega
    simp [sliceInit, h1]
  have hr : r.domain = name := by
    simp only [ingestLine, hs] at hemit
    split at hemit
    · cases hemit; rfl
    · cases hemit
  exact ⟨hr, by rw [hr, hname], by decide, by decide⟩

/-- Claim C10, amended, at the line
`{"name":"example.com.","data":{"answers":[{"type":"A","data":"192.0.2.1"}]}}`. -/
theorem ingestLine_strips_one_trailing_dot_witness :
    (⟨str "example.com.", ⟨[⟨str "A", str "192.0.2.1"⟩]⟩⟩ : MassDNSOutput).Name =
      str "example.com" ++ str "." ∧
    ingestLine (fun data => data) (some ⟨str "example.com.", ⟨[⟨str "A", str "192.0.2.1"⟩]⟩⟩) =
      Ingested.emit ⟨str "example.com", [str "192.0.2.1"]⟩ ∧
    (⟨str "example.com", [str "192.0.2.1"]⟩ : DNSResponse GoString).domain = str "example.com" :=
  ⟨by decide, rfl,
   (ingestLine_strips_one_trailing_dot (fun data => data)
     ⟨str "example.com.", ⟨[⟨str "A", str "192.0.2.1"⟩]⟩⟩
     ⟨str "example.com", [str "192.0.2.1"]⟩ (str "example.com") (by decide) rfl).1⟩

theorem collectIps_eq {IP : Type} (ParseIP : GoString → IP) : ∀ (answers : List Answer)
    (ips : List IP),
    collectIps ParseIP answers ips =
      ips ++ (answers.filter (fun a => a.«Type» = str "A")).map (fun a => ParseIP a.Data) := by
  intro answers
  induction answers with
  | nil => intro ips; simp [collectIps]
  | cons a rest ih =>
    intro ips
    by_cases h : a.«Type» = str "A"
    · simp [collectIps, h, ih]
    · simp [collectIps, h, ih]

/-- The part of claim C8 that the code keeps: a decoded line with a non-empty name is
emitted exactly when an answer has type `"A"`, with one IP per such answer, in the
order of the answers and parsed from their data, and with the name cut by one byte. -/
theorem ingestLine_of_nonempty_name {IP : Type} (ParseIP : GoString → IP)
    (massdnsOutput : MassDNSOutput) (hname : massdnsOutput.Name ≠ []) :
    ((massdnsOutput.Data.Answers.filter (fun a => a.«Type» = str "A")) ≠ [] →
      ingestLine ParseIP (some massdnsOutput) = Ingested.emit
        { domain := massdnsOutput.Name.dropLast,
          ips := (massdnsOutput.Data.Answers.filter (fun a => a.«Type» = str "A")).map
            (fun a => ParseIP a.Data) }) ∧
    ((massdnsOutput.Data.Answers.filter (fun a => a.«Type» = str "A")) = [] →
      ingestLine ParseIP (some massdnsOutput) = Ingested.skip) := by
  have hl : 0 < massdnsOutput.Name.length := List.length_pos.mpr hname
  have hs : sliceInit massdnsOutput.Name = some massdnsOutput.Name.dropLast := by
    have h1 : ¬ ((massdnsOutput.Name.length : Int) - 1 < 0) := by omega
    simp [sliceInit, h1, List.dropLast_eq_take]
  constructor
  · intro h
    have : 0 < ((massdnsOutput.Data.Answers.filter (fun a => a.«Type» = str "A")).map
        (fun a => ParseIP a.Data)).length := by
      rw [List.length_map]; exact List.length_pos.mpr h
    simp only [ingestLine, collectIps_eq, List.nil_append, gt_iff_lt, this, if_true, hs]
  · intro h
    simp [ingestLine, collectIps_eq, h]

/-! ## The favicon URL -/

theorem escape_of_unreserved (mode : encoding) : ∀ (s : GoString),
    (∀ c ∈ s, shouldEscape c mode = false) → escape s mode = s := by
  intro s
  induction s with
  | nil => intro _; simp [escape]
  | cons c t ih =>
    intro h
    have hc := h c (by simp)
    have ht := ih (fun x hx => h x (by simp [hx]))
    simp only [escape, List.flatMap_cons] at ht ⊢
    rw [ht]
    simp [hc]

/-- Claim C5, counterexample: with the final URL `https://a.b/dir/page?x=1` the
default favicon URL keeps the query string. -/
theorem defaultFaviconUrl_keeps_query :
    defaultFaviconUrl
      { Scheme := str "https", Host := str "a.b", Path := str "/dir/page", RawQuery := str "x=1" }
      = str "https://a.b/favicon.ico?x=1" ∧
    defaultFaviconUrl
      { Scheme := str "https", Host := str "a.b", Path := str "/dir/page", RawQuery := str "x=1" }
      ≠ str "https" ++ str "://" ++ str "a.b" ++ str "/favicon.ico" := by
  decide

/-- Claim C5, amended. When the scan found no favicon link, or `url.Parse` fails on
the href, the favicon URL is the final response URL `u` with its path set to
`/favicon.ico` and written out again. For an absolute `u` with a host it reads
`scheme://[userinfo@]host` + P + Q + F: the host is percent-escaped as `URL.String`
escapes a host; P is `/favicon.ico`, unless the raw path of `u` is itself a valid
percent-encoding of `/favicon.ico`, when P is that raw path (after a `/` if it does
not start with one); Q is `?` and the query of `u` when `u` has a query or a bare
`?`; F is `#` and the escaped fragment of `u` when `u` has one. User info, query
string and fragment are carried over. It is `scheme(u) + "://" + host(u) +
"/favicon.ico"` when `u` has no user info, no query and no bare `?`, no fragment, a
host that needs no escaping and a raw path that does not encode `/favicon.ico`; with
the final URL `https://a.b/dir/page` it is `https://a.b/favicon.ico`. -/
theorem defaultFaviconUrl_replaces_path_only (u : URL)
    (hscheme : u.Scheme ≠ []) (hnoOpq : u.OpaquePart = []) (hhost : u.Host ≠ []) :
    (∀ (Parse : GoString → Option URL) (ResolveReference : URL → URL → URL)
        (faviconUrl : GoString), faviconUrl = [] ∨ Parse faviconUrl = none →
      absoluteFaviconUrl Parse ResolveReference u faviconUrl = defaultFaviconUrl u) ∧
    defaultFaviconUrl u =
      u.Scheme ++ str "://" ++
        (match u.User with
         | some ui => ui.String ++ str "@"
         | none => []) ++
        escape u.Host encoding.encodeHost ++
        (if u.RawPath ≠ [] ∧ validEncoded u.RawPath encoding.encodePath = true ∧
            unescape encoding.encodePath u.RawPath = some (str "/favicon.ico") then
          (if u.RawPath.head? ≠ some (byteOf '/') then str "/" else []) ++ u.RawPath
         else str "/favicon.ico") ++
        (if u.ForceQuery ∨ u.RawQuery ≠ [] then str "?" ++ u.RawQuery else []) ++
        (if u.Fragment ≠ [] then str "#" ++ u.EscapedFragment else []) ∧
    (u.User = none → u.ForceQuery = false → u.RawQuery = [] → u.Fragment = [] →
      (∀ c ∈ u.Host, shouldEscape c encoding.encodeHost = false) →
      (u.RawPath = [] ∨
        unescape encoding.encodePath u.RawPath ≠ some (str "/favicon.ico")) →
      defaultFaviconUrl u = u.Scheme ++ str "://" ++ u.Host ++ str "/favicon.ico") ∧
    defaultFaviconUrl { Scheme := str "https", Host := str "a.b", Path := str "/dir/page" }
      = str "https://a.b/favicon.ico" := by
  have hico : str "/favicon.ico" ≠ [] := by decide
  have hpath : URL.EscapedPath { u with Path := str "/favicon.ico" } =
      if u.RawPath ≠ [] ∧ validEncoded u.RawPath encoding.encodePath = true ∧
          unescape encoding.encodePath u.RawPath = some (str "/favicon.ico") then u.RawPath
      else str "/favicon.ico" := by
    have hstar : str "/favicon.ico" ≠ str "*" := by decide
    have hesc : escape (str "/favicon.ico") encoding.encodePath = str "/favicon.ico" := by
      decide
    simp only [URL.EscapedPath, hstar, if_false, hesc]
  have hauth : URL.authority { u with Path := str "/favicon.ico" } =
      str "//" ++
        (match u.User with
         | some ui => ui.String ++ str "@"
         | none => []) ++ escape u.Host encoding.encodeHost := by
    simp [URL.authority, hscheme, hhost]
  have hfrag : URL.EscapedFragment { u with Path := str "/favicon.ico" } = u.EscapedFragment :=
    rfl
  have hhead : (str "/favicon.ico").head? = some (byteOf '/') := by decide
  have hcolon : str "://" = str ":" ++ str "//" := by decide
  have hlen : (u.Scheme ++ str ":" ++
      (str "//" ++
        (match u.User with
         | some ui => ui.String ++ str "@"
         | none => []) ++ escape u.Host encoding.encodeHost)).length ≠ 0 := by
    have : 0 < u.Scheme.length := List.length_pos.mpr hscheme
    simp only [List.length_append]
    omega
  have key : ∀ (v : URL) (P : GoString), v.Scheme = u.Scheme → v.OpaquePart = [] →
      v.Host = u.Host →
      v.authority = str "//" ++
        (match u.User with
         | some ui => ui.String ++ str "@"
         | none => []) ++ escape u.Host encoding.encodeHost →
      v.EscapedPath = P → P ≠ [] → v.ForceQuery = u.ForceQuery →
      v.RawQuery = u.RawQuery → v.Fragment = u.Fragment →
      v.EscapedFragment = u.EscapedFragment →
      v.String =
        u.Scheme ++ str "://" ++
          (match u.User with
           | some ui => ui.String ++ str "@"
           | none => []) ++
          escape u.Host encoding.encodeHost ++
          ((if P.head? ≠ some (byteOf '/') then str "/" else []) ++ P) ++
          (if u.ForceQuery ∨ u.RawQuery ≠ [] then str "?" ++ u.RawQuery else []) ++
          (if u.Fragment ≠ [] then str "#" ++ u.EscapedFragment else []) := by
    intro v P e1 e2 e3 e4 e5 hP e6 e7 e8 e9
    unfold URL.String
    rw [e1, e2, e3, e4, e5, e6, e7, e8, e9]
    have hlen2 : (u.Scheme ++ str ":" ++
        (str "//" ++
          (match u.User with
           | some ui => ui.String ++ str "@"
           | none => []) ++ escape u.Host encoding.encodeHost) ++ str "/").length ≠ 0 := by
      have : 0 < u.Scheme.length := List.length_pos.mpr hscheme
      simp only [List.length_append]
      omega
    by_cases hh : P.head? = some (byteOf '/')
    · simp only [hscheme, hhost, hP, hh, hlen, hcolon, ne_eq, not_true_eq_false,
        not_false_eq_true, if_true, if_false, false_and, and_false, true_and]
      by_cases hq : u.ForceQuery = true ∨ ¬ u.RawQuery = [] <;>
        by_cases hf : u.Fragment = [] <;>
        simp [hq, hf, List.append_assoc]
    · simp only [hscheme, hhost, hP, hh, hlen2, hcolon, ne_eq, not_true_eq_false,
        not_false_eq_true, if_true, if_false, false_and, and_false, true_and, and_self]
      by_cases hq : u.ForceQuery = true ∨ ¬ u.RawQuery = [] <;>
        by_cases hf : u.Fragment = [] <;>
        simp [hq, hf, List.append_assoc]
  have hmain : defaultFaviconUrl u =
      u.Scheme ++ str "://" ++
        (match u.User with
         | some ui => ui.String ++ str "@"
         | none => []) ++
        escape u.Host encoding.encodeHost ++
        (if u.RawPath ≠ [] ∧ validEncoded u.RawPath encoding.encodePath = true ∧
            unescape encoding.encodePath u.RawPath = some (str "/favicon.ico") then
          (if u.RawPath.head? ≠ some (byteOf '/') then str "/" else []) ++ u.RawPath
         else str "/favicon.ico") ++
        (if u.ForceQuery ∨ u.RawQuery ≠ [] then str "?" ++ u.RawQuery else []) ++
        (if u.Fragment ≠ [] then str "#" ++ u.EscapedFragment else []) := by
    by_cases hc : u.RawPath ≠ [] ∧ validEncoded u.RawPath encoding.encodePath = true ∧
        unescape encoding.encodePath u.RawPath = some (str "/favicon.ico")
    · rw [if_pos hc] at hpath
      rw [if_pos hc]
      exact key { u with Path := str "/favicon.ico" } u.RawPath rfl hnoOpq rfl hauth hpath hc.1
        rfl rfl rfl hfrag
    · rw [if_neg hc] at hpath
      rw [if_neg hc]
      have := key { u with Path := str "/favicon.ico" } (str "/favicon.ico") rfl hnoOpq rfl
        hauth hpath hico rfl rfl rfl hfrag
      have hn : ¬ ((str "/favicon.ico").head? ≠ some (byteOf '/')) := by decide
      rw [if_neg hn, List.nil_append] at this
      exact this
  refine ⟨?_, hmain, ?_, by decide⟩
  · intro Parse ResolveReference faviconUrl h
    rcases h with h | h
    · simp [absoluteFaviconUrl, h]
    · by_cases he : faviconUrl = []
      · simp [absoluteFaviconUrl, he]
      · simp [absoluteFaviconUrl, he, h]
  · intro hu hfq hq hf hh hraw
    have hc : ¬ (u.RawPath ≠ [] ∧ validEncoded u.RawPath encoding.encodePath = true ∧
        unescape encoding.encodePath u.RawPath = some (str "/favicon.ico")) := by
      rintro ⟨h1, _, h3⟩
      rcases hraw with h | h
      · exact h1 h
      · exact h h3
    rw [hmain, if_neg hc, hu, hfq, hq, hf, escape_of_unreserved _ _ hh]
    simp

/-- Claim C5, amended, at the final URLs `https://a.b/dir/page`,
`https://me@a.b/dir/page?x=1#top` and `https://a.b/favicon%2Eico`. -/
theorem defaultFaviconUrl_replaces_path_only_witness :
    str "https" ≠ [] ∧ str "a.b" ≠ [] ∧
    defaultFaviconUrl { Scheme := str "https", Host := str "a.b", Path := str "/dir/page" } =
      str "https" ++ str "://" ++ str "a.b" ++ str "/favicon.ico" ∧
    defaultFaviconUrl
      { Scheme := str "https", User := some ⟨str "me", [], false⟩, Host := str "a.b",
        Path := str "/dir/page", RawQuery := str "x=1", Fragment := str "top" } =
      str "https://me@a.b/favicon.ico?x=1#top" ∧
    defaultFaviconUrl
      { Scheme := str "https", Host := str "a.b", Path := str "/favicon.ico",
        RawPath := str "/favicon%2Eico" } = str "https://a.b/favicon%2Eico" :=
  ⟨by decide, by decide,
   (defaultFaviconUrl_replaces_path_only
      { Scheme := str "https", Host := str "a.b", Path := str "/dir/page" }
      (by decide) rfl (by decide)).2.2.1 rfl rfl rfl rfl (by decide) (Or.inl rfl),
   by decide, by decide⟩

end Goprobber
